import Mathlib

/-!
Frequency scanner of the PortaPack firmware (`ui_scanner.cpp`, `ui_scanner.hpp`).

A shallow embedding of the scanner application: the signal lock machine
(`ScannerView::on_statistics_update`, `scan_pause`, `scan_resume`, the pause
button), the frequency list builders (the manual scan button and the database
loop of the constructor) and the loop of `ScannerThread::run`.

Conventions.
* `uint32_t` members (`timer`, `wait`, `_freq_lock`, `frequency_index`) are
  natural numbers; every `++` and every product is reduced modulo `2 ^ 32`.
* `rf::Frequency` is a 64 bit signed integer: frequencies are integers and
  every addition or subtraction on them is reduced to the two's complement
  range by `wrap_int64`, as the add instructions of the target do. The
  `int32_t` levels are integers.
* Calls into the collaborators (audio output, receiver, thread handle, modal
  dialogs) are appended, in program order, to a call log.
-/

namespace Scanner

/-! ## Constants of `ui_scanner.hpp` -/

/-- Constant `MAX_DB_ENTRY` of `ui_scanner.hpp`: the capacity of the scan list. -/
def MAX_DB_ENTRY : Nat := 500

/-- Constant `MAX_FREQ_LOCK` of `ui_scanner.hpp`: the probe threshold. -/
def MAX_FREQ_LOCK : Nat := 10

/-- Number of values of a `uint32_t`. -/
def UINT32 : Nat := 2 ^ 32

/-- Smallest value of a 64 bit signed integer, the type of `rf::Frequency`:
minus `2 ^ 63`. -/
def INT64_MIN : Int := -9223372036854775808

/-- Largest value of a 64 bit signed integer, the type of `rf::Frequency`:
`2 ^ 63 - 1`. -/
def INT64_MAX : Int := 9223372036854775807

/-- The result of 64 bit signed arithmetic on the target: the exact result
reduced modulo `2 ^ 64 = 18446744073709551616` into the range
`INT64_MIN .. INT64_MAX`. -/
def wrap_int64 (x : Int) : Int :=
  (x + 9223372036854775808) % 18446744073709551616 - 9223372036854775808

/-- The enumeration `modulation_type` with `AM = 0`, `WFM`, `NFM`. -/
inductive modulation_type where
  | AM
  | WFM
  | NFM
deriving DecidableEq, Repr

/-- The table `mod_step[3]` with the values 9000, 100000, 12500. -/
def mod_step : modulation_type → Nat
  | .AM => 9000
  | .WFM => 100000
  | .NFM => 12500

/-- The three styles of `big_display` declared in `ScannerView`. -/
inductive Style where
  | style_grey
  | style_yellow
  | style_green
deriving DecidableEq, Repr

/-- Calls made by the view into its collaborators, logged in program order. -/
inductive Call where
  /-- Call `audio::output::start()`. -/
  | audio_output_start
  /-- Call `audio::output::stop()`. -/
  | audio_output_stop
  /-- Calls `chThdTerminate(thread); chThdWait(thread)` inside `ScannerThread::stop`. -/
  | thread_terminate_wait
  /-- Call `receiver_model.enable()`. -/
  | receiver_enable
  /-- Call `receiver_model.set_squelch_level(level)`. -/
  | receiver_set_squelch_level (level : Nat)
  /-- Call `nav_.display_modal(title, message)`. -/
  | display_modal (title message : String)
deriving DecidableEq, Repr

/-! ## `ScannerThread` -/

/-- Members of `class ScannerThread`. `thread` is `true` while the thread
handle is not null. -/
structure ScannerThread where
  frequency_list_ : List Int
  thread : Bool
  _scanning : Bool
  _userpause : Bool
  _freq_lock : Nat
deriving DecidableEq, Repr

/-- Constructor `ScannerThread::ScannerThread(frequency_list)`: the member initialisers
`_scanning { true }`, `_userpause { false }`, `_freq_lock { 0 }` and a created
thread. -/
def ScannerThread.create (frequency_list : List Int) : ScannerThread :=
  { frequency_list_ := frequency_list
    thread := true
    _scanning := true
    _userpause := false
    _freq_lock := 0 }

/-! ## `ScannerView` -/

/-- Members of `class ScannerView` that the modelled handlers read or write.
`step_mode_value` is `step_mode.selected_index_value()`. -/
structure ScannerView where
  frequency_list : List Int
  description_list : List String
  frequency_range_min : Int
  frequency_range_max : Int
  squelch : Int
  timer : Nat
  wait : Nat
  def_step : Nat
  step_mode_value : Nat
  scan_thread : ScannerThread
  big_display_style : Style
  text_max : String
  desc_cycle : String
  button_pause_text : String
  calls : List Call
deriving DecidableEq, Repr

/-- Method `ScannerView::scan_pause`. -/
def scan_pause (v : ScannerView) : ScannerView :=
  if v.scan_thread._scanning then
    { v with
      scan_thread := { v.scan_thread with _freq_lock := 0, _scanning := false }
      calls := v.calls ++ [Call.audio_output_start] }
  else v

/-- Method `ScannerView::scan_resume`. -/
def scan_resume (v : ScannerView) : ScannerView :=
  if !v.scan_thread._scanning then
    { v with
      calls := v.calls ++ [Call.audio_output_stop]
      big_display_style := Style.style_grey
      scan_thread := { v.scan_thread with _scanning := true } }
  else v

/-- Method `ScannerView::on_statistics_update`, with `max_db` the field
`statistics.max_db` of the sample. -/
def on_statistics_update (max_db : Int) (v : ScannerView) : ScannerView :=
  if !v.scan_thread._userpause then
    if v.timer ≥ (v.wait * 10) % UINT32 then
      scan_resume { v with timer := 0 }
    else if v.timer = 0 then
      if max_db > - v.squelch then
        if v.scan_thread._freq_lock ≥ MAX_FREQ_LOCK then
          let v1 := scan_pause v
          { v1 with timer := (v1.timer + 1) % UINT32 }
        else
          { v with
            scan_thread :=
              { v.scan_thread with
                _freq_lock := (v.scan_thread._freq_lock + 1) % UINT32 } }
      else
        if v.scan_thread._freq_lock > 0 then
          { v with
            big_display_style := Style.style_grey
            scan_thread := { v.scan_thread with _freq_lock := 0 } }
        else v
    else
      { v with timer := (v.timer + 1) % UINT32 }
  else v

/-- The statistics handler run on a sequence of samples, oldest first. -/
def feed (samples : List Int) (v : ScannerView) : ScannerView :=
  samples.foldl (fun s max_db => on_statistics_update max_db s) v

/-- The lambda `button_pause.on_select`. -/
def button_pause_on_select (v : ScannerView) : ScannerView :=
  if v.scan_thread._userpause then
    { v with
      timer := (v.wait * 10) % UINT32
      button_pause_text := "PAUSE"
      scan_thread := { v.scan_thread with _userpause := false } }
  else
    let v1 := scan_pause v
    { v1 with
      scan_thread := { v1.scan_thread with _userpause := true }
      button_pause_text := "RESUME" }

/-- A view as the lock machine sees it at rest: scanning, not paused by the
user, no cooldown running and no probe in progress. -/
def idle_view (wait : Nat) (squelch : Int) : ScannerView :=
  { frequency_list := [100000000, 100010000]
    description_list := ["M:", "", ""]
    frequency_range_min := 100000000
    frequency_range_max := 100010000
    squelch := squelch
    timer := 0
    wait := wait
    def_step := 10000
    step_mode_value := 10000
    scan_thread := ScannerThread.create [100000000, 100010000]
    big_display_style := Style.style_grey
    text_max := "/ 2"
    desc_cycle := ""
    button_pause_text := "PAUSE"
    calls := [] }

/-! ## Frequency list builders -/

/-- The two formatting helpers of `string_format.hpp` used by the view. Their
code is outside the modelled files, so they are parameters of the model. -/
structure StringFormat where
  to_string_short_freq : Int → String
  to_string_dec_uint : Nat → String

/-- Method `ScannerThread::stop`, called through `scan_thread->stop()`. -/
def scan_thread_stop (v : ScannerView) : ScannerView :=
  if v.scan_thread.thread then
    { v with
      calls := v.calls ++ [Call.thread_terminate_wait]
      scan_thread := { v.scan_thread with thread := false } }
  else v

/-- Method `ScannerView::start_scan_thread`. -/
def start_scan_thread (v : ScannerView) : ScannerView :=
  { v with
    calls := v.calls ++ [Call.receiver_enable, Call.receiver_set_squelch_level 0]
    scan_thread := ScannerThread.create v.frequency_list }

/-- Method `ScannerView::show_max`. -/
def show_max (fmt : StringFormat) (v : ScannerView) : ScannerView :=
  if v.frequency_list.length = MAX_DB_ENTRY then
    { v with text_max := "/ " ++ fmt.to_string_dec_uint MAX_DB_ENTRY ++ " (DB MAX!)" }
  else
    { v with text_max := "/ " ++ fmt.to_string_dec_uint v.frequency_list.length }

/-- The `while` loop of `button_manual_scan.on_select` on the local
`frequency`; it returns the local and the view at loop exit. The statement
`frequency += def_step` is a 64 bit addition (`wrap_int64`). Every iteration
pushes one entry and the condition fails once the list holds `MAX_DB_ENTRY`
entries, so `fuel = MAX_DB_ENTRY` iterations always reach the exit
(`manual_range_loop_exit`). -/
def manual_range_loop : Nat → Int → ScannerView → Int × ScannerView
  | 0, frequency, v => (frequency, v)
  | fuel + 1, frequency, v =>
    if v.frequency_list.length < MAX_DB_ENTRY ∧ frequency ≤ v.frequency_range_max then
      manual_range_loop fuel (wrap_int64 (frequency + v.def_step))
        { v with
          frequency_list := v.frequency_list ++ [frequency]
          description_list := v.description_list ++ [""] }
    else (frequency, v)

/-- The lambda `button_manual_scan.on_select`. -/
def button_manual_scan_on_select (fmt : StringFormat) (v : ScannerView) : ScannerView :=
  if v.frequency_range_min = 0 ∨ v.frequency_range_max = 0 then
    { v with
      calls := v.calls ++
        [Call.display_modal "Error" "Both START and END freqs\nneed a value"] }
  else if v.frequency_range_min > v.frequency_range_max then
    { v with
      calls := v.calls ++ [Call.display_modal "Error" "END freq\nis lower than START"] }
  else
    let v1 : ScannerView := { v with calls := v.calls ++ [Call.audio_output_stop] }
    let v2 := scan_thread_stop v1
    let v3 : ScannerView := { v2 with frequency_list := [], description_list := [] }
    let v4 : ScannerView := { v3 with def_step := v3.step_mode_value }
    let v5 : ScannerView :=
      { v4 with
        description_list := v4.description_list ++
          ["M:" ++ fmt.to_string_short_freq v4.frequency_range_min ++ " >"
            ++ fmt.to_string_short_freq v4.frequency_range_max ++ " S:"
            ++ fmt.to_string_short_freq v4.def_step] }
    let v6 := (manual_range_loop MAX_DB_ENTRY v5.frequency_range_min v5).2
    start_scan_thread (show_max fmt v6)

/-- Modelled from the spec: the record kind of the frequency database
(`freqman.hpp` is not among the modelled files). The constructor compares it
with `RANGE` and `SINGLE` only; `other` stands for any further value. -/
inductive freqman_entry_type where
  | SINGLE
  | RANGE
  | other
deriving DecidableEq, Repr

/-- Modelled from the spec: the step code of a database record
(`freqman.hpp` is not among the modelled files). The nine named values are the
`case` labels of the constructor; `other` stands for any value without a
label. -/
inductive freqman_entry_step where
  | AM_US
  | AM_EUR
  | NFM_1
  | NFM_2
  | FM_1
  | FM_2
  | N_1
  | N_2
  | AIRBAND
  | other
deriving DecidableEq, Repr

/-- Modelled from the spec: a database record
`{ kind, frequency_a, frequency_b, step_code, description }`
(`freqman.hpp` is not among the modelled files). -/
structure freqman_entry where
  frequency_a : Int
  frequency_b : Int
  description : String
  type : freqman_entry_type
  step : freqman_entry_step
deriving DecidableEq, Repr

/-- The `switch (entry.step)` of the constructor: the new value of `def_step`.
The switch has no `default`, so an unlisted code keeps the old value. -/
def entry_step_switch (step : freqman_entry_step) (def_step : Nat) : Nat :=
  match step with
  | .AM_US => 10000
  | .AM_EUR => 9000
  | .NFM_1 => 12500
  | .NFM_2 => 6250
  | .FM_1 => 100000
  | .FM_2 => 50000
  | .N_1 => 25000
  | .N_2 => 250000
  | .AIRBAND => 8330
  | .other => def_step

/-- The inner `while` loop of the constructor ("add the rest of the range") on
`entry.frequency_a`, with `frequency_b = entry.frequency_b`; it returns
`entry.frequency_a` and the view at loop exit. The statement
`entry.frequency_a += def_step` is a 64 bit addition (`wrap_int64`). As in
`manual_range_loop`, `MAX_DB_ENTRY` iterations always reach the exit
(`range_loop_exit`). -/
def range_loop : Nat → Int → Int → ScannerView → Int × ScannerView
  | 0, frequency_a, _, v => (frequency_a, v)
  | fuel + 1, frequency_a, frequency_b, v =>
    if v.frequency_list.length < MAX_DB_ENTRY ∧ frequency_a ≤ frequency_b then
      range_loop fuel (wrap_int64 (frequency_a + v.def_step)) frequency_b
        { v with
          frequency_list := v.frequency_list ++ [wrap_int64 (frequency_a + v.def_step)]
          description_list := v.description_list ++ [""] }
    else (frequency_a, v)

/-- The body of the database loop for one record that found room, up to the
call of `show_max`. (The write-back of `entry.frequency_a` into `database` is
not kept: the constructor never reads the database again.) -/
def learn_entry (fmt : StringFormat) (entry : freqman_entry) (v : ScannerView) :
    ScannerView :=
  match entry.type with
  | .RANGE =>
    let v1 : ScannerView := { v with def_step := entry_step_switch entry.step v.def_step }
    let v2 : ScannerView :=
      { v1 with
        frequency_list := v1.frequency_list ++ [entry.frequency_a]
        description_list := v1.description_list ++
          ["R:" ++ fmt.to_string_short_freq entry.frequency_a
            ++ " >" ++ fmt.to_string_short_freq entry.frequency_b
            ++ " S:" ++ fmt.to_string_short_freq v1.def_step] }
    (range_loop MAX_DB_ENTRY entry.frequency_a entry.frequency_b v2).2
  | .SINGLE =>
    { v with
      frequency_list := v.frequency_list ++ [entry.frequency_a]
      description_list := v.description_list ++ ["S: " ++ entry.description] }
  | .other => v

/-- The loop `for (auto& entry : database)` of the constructor, with its
`break` when the list is full. -/
def learn_frequencies (fmt : StringFormat) : List freqman_entry → ScannerView → ScannerView
  | [], v => v
  | entry :: rest, v =>
    if v.frequency_list.length < MAX_DB_ENTRY then
      learn_frequencies fmt rest (show_max fmt (learn_entry fmt entry v))
    else v

/-- The values of `step_mode`, in the order of the option list. -/
def step_mode_options : List Nat :=
  [5000, 9000, 10000, 50000, 100000, 6250, 12500, 25000, 250000, 8330]

/-- The view before the constructor body runs: the default member
initialisers of `ui_scanner.hpp`. The null `scan_thread` is a thread object
without a thread handle; `start_scan_thread` replaces it before any use. -/
def ScannerView.members : ScannerView :=
  { frequency_list := []
    description_list := []
    frequency_range_min := 0
    frequency_range_max := 0
    squelch := 0
    timer := 0
    wait := 0
    def_step := 0
    step_mode_value := 5000
    scan_thread :=
      { frequency_list_ := [], thread := false, _scanning := true,
        _userpause := false, _freq_lock := 0 }
    big_display_style := Style.style_grey
    text_max := ""
    desc_cycle := ""
    button_pause_text := "PAUSE"
    calls := [] }

/-- The first part of `ScannerView::ScannerView`, down to the comment
`LEARN FREQUENCIES`. `stored_freq` is `persistent_memory::tuned_frequency()`;
`change_mode(AM)` enters by its return value `mod_step[AM]`;
`field_wait.set_value(5)` and `field_squelch.set_value(30)` run the
`on_change` lambdas. The helper range `stored_freq ± 1000000` is 64 bit
arithmetic (`wrap_int64`). -/
def ScannerView.preconfigured (stored_freq : Int) : ScannerView :=
  let v0 := ScannerView.members
  let v1 : ScannerView := { v0 with def_step := mod_step modulation_type.AM }
  let v2 : ScannerView := { v1 with big_display_style := Style.style_grey }
  let v3 : ScannerView :=
    { v2 with
      frequency_range_min := wrap_int64 (stored_freq - 1000000)
      frequency_range_max := wrap_int64 (stored_freq + 1000000) }
  { v3 with wait := 5, squelch := 30 }

/-- Constructor `ScannerView::ScannerView`. `stored_freq` is
`persistent_memory::tuned_frequency()`; `database` is `none` when
`load_freqman_file` fails and the loaded records otherwise; at the end
`step_mode` selects `def_step` when it is one of its options. -/
def ScannerView.construct (fmt : StringFormat) (stored_freq : Int)
    (database : Option (List freqman_entry)) : ScannerView :=
  let v4 := ScannerView.preconfigured stored_freq
  let v5 : ScannerView :=
    match database with
    | some records => learn_frequencies fmt records v4
    | none => { v4 with desc_cycle := " NO SCANNER.TXT FILE ..." }
  let v6 : ScannerView := { v5 with calls := v5.calls ++ [Call.audio_output_stop] }
  let v7 : ScannerView :=
    if v6.def_step ∈ step_mode_options then { v6 with step_mode_value := v6.def_step }
    else v6
  start_scan_thread v7

/-! ## `ScannerThread::run` -/

/-- Calls made by the scan task. -/
inductive ThreadCall where
  /-- Call `receiver_model.set_tuning_frequency(f)`. -/
  | set_tuning_frequency (f : Int)
  /-- Call `chThdSleepMilliseconds(ms)`. -/
  | sleep_ms (ms : Nat)
  /-- Call `EventDispatcher::send_message(message)` with `message.range = range`. -/
  | send_message (range : Nat)
deriving DecidableEq, Repr

/-- One pass through the body of the `while` loop of `ScannerThread::run`.
`scanning` and `freq_lock` are the values of `_scanning` and `_freq_lock` read
in this pass (the view writes them between passes); the result is the new
`frequency_index` and the calls of the pass. The subscript
`frequency_list_[frequency_index]` comes right after the wrap test, so the
default of `getD` is used only for an empty list, for which `run` never
enters the loop. -/
def run_tick (frequency_list_ : List Int) (scanning : Bool) (freq_lock : Nat)
    (frequency_index : Nat) : Nat × List ThreadCall :=
  if scanning then
    if freq_lock = 0 then
      let i := (frequency_index + 1) % UINT32
      let j := if i ≥ frequency_list_.length then 0 else i
      (j, [ThreadCall.set_tuning_frequency (frequency_list_.getD j 0),
           ThreadCall.send_message j, ThreadCall.sleep_ms 50])
    else
      (frequency_index,
        [ThreadCall.sleep_ms 25, ThreadCall.send_message frequency_index,
         ThreadCall.sleep_ms 50])
  else (frequency_index, [ThreadCall.sleep_ms 50])

/-- The `while` loop of `ScannerThread::run`: one entry of `flags` per pass
(the pair `_scanning`, `_freq_lock` read in it); the loop ends with the
termination request after the last entry. The result lists, per pass, the
cursor after the pass and the calls made. -/
def run_loop (frequency_list_ : List Int) :
    List (Bool × Nat) → Nat → List (Nat × List ThreadCall)
  | [], _ => []
  | (scanning, freq_lock) :: rest, frequency_index =>
    let r := run_tick frequency_list_ scanning freq_lock frequency_index
    r :: run_loop frequency_list_ rest r.1

/-- Method `ScannerThread::run`. -/
def run (frequency_list_ : List Int) (flags : List (Bool × Nat)) :
    List (Nat × List ThreadCall) :=
  if frequency_list_.length ≠ 0 then
    run_loop frequency_list_ flags (frequency_list_.length % UINT32)
  else []

/-! ## `ScannerView::handle_retune` -/

/-- The view after pushing the frequencies `fs`, each with an empty
description, as the bodies of both range loops do. -/
def push_all (v : ScannerView) (fs : List Int) : ScannerView :=
  { v with
    frequency_list := v.frequency_list ++ fs
    description_list := v.description_list ++ List.replicate fs.length "" }

/-- The number of frequencies that the constructor pushes for one record when
the capacity tests `frequency_list.size() < MAX_DB_ENTRY` are left out, with
`def_step` the step in force before the record: a range pushes its start and
then one more frequency per start value `a, a + step, ...` that is `≤ b`. -/
def uncapped_entry_count (def_step : Nat) (entry : freqman_entry) : Nat :=
  match entry.type with
  | .RANGE =>
    if entry.frequency_a ≤ entry.frequency_b then
      ((entry.frequency_b - entry.frequency_a) /
        (entry_step_switch entry.step def_step : Int)).toNat + 2
    else 1
  | .SINGLE => 1
  | .other => 0

/-- The value of `def_step` after one record has been processed. -/
def step_after (def_step : Nat) (entry : freqman_entry) : Nat :=
  match entry.type with
  | .RANGE => entry_step_switch entry.step def_step
  | _ => def_step

/-- The number of frequencies the records of a database would expand to
without the capacity cap, starting with the step `def_step`. -/
def uncapped_count : Nat → List freqman_entry → Nat
  | _, [] => 0
  | def_step, entry :: rest =>
    uncapped_entry_count def_step entry + uncapped_count (step_after def_step entry) rest

/-- The largest step of the `switch (entry.step)` table and of `mod_step`. -/
def MAX_STEP : Nat := 250000

/-- The text `show_max` writes when the list is full. -/
def db_max_text (fmt : StringFormat) : String :=
  "/ " ++ fmt.to_string_dec_uint MAX_DB_ENTRY ++ " (DB MAX!)"

/-- A formatter for concrete examples: plain decimal digits. -/
def decimal_format : StringFormat :=
  { to_string_short_freq := fun f => toString f
    to_string_dec_uint := fun n => toString n }

/-- The view of a manual scan request from `fmin` to `fmax` with the step
`step` selected: the idle view with that range. -/
def manual_view (fmin fmax : Int) (step : Nat) : ScannerView :=
  { idle_view 5 30 with
    frequency_range_min := fmin
    frequency_range_max := fmax
    step_mode_value := step }

/-- A database of one FM range from 100 MHz to 200 MHz at 100 kHz steps, which
expands to more than `MAX_DB_ENTRY` frequencies. -/
def wide_range_database : List freqman_entry :=
  [{ frequency_a := 100000000, frequency_b := 200000000, description := "FM",
     type := freqman_entry_type.RANGE, step := freqman_entry_step.FM_1 }]

/-- A scan list of three frequencies, for concrete examples. -/
def three_frequencies : List Int := [144000000, 145000000, 146000000]

/-- The calls of a pass of the scan task that retunes to index `i`. -/
def retune_pass (frequency_list_ : List Int) (i : Nat) : Nat × List ThreadCall :=
  (i, [ThreadCall.set_tuning_frequency (frequency_list_.getD i 0),
       ThreadCall.send_message i, ThreadCall.sleep_ms 50])

/-- The `range` values of the retune messages among the calls of one pass. -/
def message_ranges : List ThreadCall → List Nat
  | [] => []
  | ThreadCall.send_message range :: rest => range :: message_ranges rest
  | _ :: rest => message_ranges rest

/-- The `range` values of all retune messages of a run, in the order sent. -/
def notifications : List (Nat × List ThreadCall) → List Nat
  | [] => []
  | pass :: rest => message_ranges pass.2 ++ notifications rest

/-- A database of one AM range from 100 MHz to 100.02 MHz at 10 kHz steps. -/
def narrow_range_database : List freqman_entry :=
  [{ frequency_a := 100000000, frequency_b := 100020000, description := "AM",
     type := freqman_entry_type.RANGE, step := freqman_entry_step.AM_US }]

theorem feed_nil (v : ScannerView) : feed [] v = v := rfl

theorem feed_cons (x : Int) (xs : List Int) (v : ScannerView) :
    feed (x :: xs) v = feed xs (on_statistics_update x v) := rfl

theorem feed_append (xs ys : List Int) (v : ScannerView) :
    feed (xs ++ ys) v = feed ys (feed xs v) := by
  simp [feed, List.foldl_append]

/-- A sample above squelch while probing below the threshold only counts. -/
theorem on_statistics_update_probe (x : Int) (v : ScannerView)
    (hu : v.scan_thread._userpause = false) (ht : v.timer = 0)
    (hw : 0 < (v.wait * 10) % UINT32) (hx : x > - v.squelch)
    (hl : v.scan_thread._freq_lock < MAX_FREQ_LOCK) :
    on_statistics_update x v =
      { v with scan_thread :=
          { v.scan_thread with _freq_lock := v.scan_thread._freq_lock + 1 } } := by
  have h1 : ¬ (0 ≥ (v.wait * 10) % UINT32) := by omega
  have h2 : ¬ (v.scan_thread._freq_lock ≥ MAX_FREQ_LOCK) := by omega
  have h3 : (v.scan_thread._freq_lock + 1) % UINT32 = v.scan_thread._freq_lock + 1 := by
    apply Nat.mod_eq_of_lt
    simp only [MAX_FREQ_LOCK, UINT32] at *
    omega
  simp only [on_statistics_update, hu, ht, h1, h2, h3, hx]
  simp

/-- A run of samples above squelch that stays within the threshold counts
each of them. -/
theorem feed_probe (samples : List Int) :
    ∀ v : ScannerView, v.scan_thread._userpause = false → v.timer = 0 →
      0 < (v.wait * 10) % UINT32 → (∀ x ∈ samples, x > - v.squelch) →
      v.scan_thread._freq_lock + samples.length ≤ MAX_FREQ_LOCK →
      feed samples v =
        { v with scan_thread :=
            { v.scan_thread with
              _freq_lock := v.scan_thread._freq_lock + samples.length } } := by
  induction samples with
  | nil => intro v _ _ _ _ _; simp [feed_nil]
  | cons x xs ih =>
    intro v hu ht hw hx hl
    simp only [List.length_cons] at hl
    rw [feed_cons, on_statistics_update_probe x v hu ht hw
      (hx x (List.mem_cons_self x xs)) (by omega)]
    refine (ih _ ?_ ?_ ?_ ?_ ?_).trans ?_
    · exact hu
    · exact ht
    · exact hw
    · exact fun y hy => hx y (List.mem_cons_of_mem x hy)
    · simp only; omega
    · simp only [List.length_cons, Nat.add_assoc, Nat.add_comm 1]

/-- With a zero cooldown length every sample takes the first branch, which
leaves a scanning view with a zero timer as it is. -/
theorem feed_zero_wait (samples : List Int) :
    ∀ v : ScannerView, v.scan_thread._userpause = false → v.timer = 0 →
      (v.wait * 10) % UINT32 = 0 → v.scan_thread._scanning = true →
      feed samples v = v := by
  induction samples with
  | nil => intro v _ _ _ _; rfl
  | cons x xs ih =>
    intro v hu ht hw hs
    have h : on_statistics_update x v = v := by
      simp only [on_statistics_update, hu, ht, hw, scan_resume, hs]
      simp [← ht]
    rw [feed_cons, h]
    exact ih v hu ht hw hs

/-- While the cooldown runs every sample only advances the timer. -/
theorem feed_cooldown (samples : List Int) :
    ∀ v : ScannerView, v.scan_thread._userpause = false → 1 ≤ v.timer →
      v.wait * 10 < UINT32 → v.timer + samples.length ≤ v.wait * 10 →
      feed samples v = { v with timer := v.timer + samples.length } := by
  induction samples with
  | nil => intro v _ _ _ _; simp [feed_nil]
  | cons x xs ih =>
    intro v hu ht hw hl
    simp only [List.length_cons] at hl
    have h : on_statistics_update x v = { v with timer := v.timer + 1 } := by
      have h0 : (v.wait * 10) % UINT32 = v.wait * 10 := Nat.mod_eq_of_lt hw
      have h1 : ¬ (v.timer ≥ v.wait * 10) := by omega
      have h2 : ¬ (v.timer = 0) := by omega
      have h3 : (v.timer + 1) % UINT32 = v.timer + 1 := Nat.mod_eq_of_lt (by omega)
      simp [on_statistics_update, hu, h0, h1, h2, h3]
    rw [feed_cons, h]
    refine (ih _ ?_ ?_ ?_ ?_).trans ?_
    · exact hu
    · simp only; omega
    · exact hw
    · simp only; omega
    · simp only [List.length_cons, Nat.add_assoc, Nat.add_comm 1]

/-- Under a user pause the statistics handler is the identity. -/
theorem feed_userpause (samples : List Int) :
    ∀ v : ScannerView, v.scan_thread._userpause = true → feed samples v = v := by
  induction samples with
  | nil => intro v _; rfl
  | cons x xs ih =>
    intro v hu
    have h : on_statistics_update x v = v := by simp [on_statistics_update, hu]
    rw [feed_cons, h]
    exact ih v hu

/-! ## The lock machine: lock acquisition, cancel, cooldown, user pause -/

/-- C1, counterexample. The idle view with `wait = 5` and `squelch = 30` meets
every premise of the claim, and after ten samples of level `0 > -30` it is not
locked: the scanning flag is still set and the audio output was not started. -/
theorem ten_samples_do_not_lock :
    (idle_view 5 30).scan_thread._scanning = true ∧
    (idle_view 5 30).scan_thread._userpause = false ∧
    (idle_view 5 30).timer = 0 ∧
    (idle_view 5 30).scan_thread._freq_lock = 0 ∧
    1 ≤ (idle_view 5 30).wait ∧
    (∀ x ∈ List.replicate 10 (0 : Int), x > - (idle_view 5 30).squelch) ∧
    (feed (List.replicate 10 0) (idle_view 5 30)).scan_thread._scanning = true ∧
    (feed (List.replicate 10 0) (idle_view 5 30)).calls = [] := by
  decide

/-- C1, amended. From the idle state with `wait ≥ 1` (and `wait * 10` within
`uint32_t`), ten consecutive samples above squelch bring the probe counter to
`MAX_FREQ_LOCK` with the scanning flag still set, no call made and the timer
still `0`; the eleventh consecutive sample above squelch locks: the scanning
flag is cleared, the audio output is started, the probe counter is reset and
the cooldown timer is `1`. -/
theorem lock_on_eleventh_sample (v : ScannerView) (samples : List Int) (x : Int)
    (hs : v.scan_thread._scanning = true) (hu : v.scan_thread._userpause = false)
    (ht : v.timer = 0) (hl : v.scan_thread._freq_lock = 0)
    (hw1 : 1 ≤ v.wait) (hw2 : v.wait * 10 < UINT32)
    (hn : samples.length = 10) (ha : ∀ y ∈ samples, y > - v.squelch)
    (hx : x > - v.squelch) :
    ((feed samples v).scan_thread._freq_lock = MAX_FREQ_LOCK ∧
      (feed samples v).scan_thread._scanning = true ∧
      (feed samples v).calls = v.calls ∧
      (feed samples v).timer = 0) ∧
    ((feed (samples ++ [x]) v).scan_thread._scanning = false ∧
      (feed (samples ++ [x]) v).calls = v.calls ++ [Call.audio_output_start] ∧
      (feed (samples ++ [x]) v).scan_thread._freq_lock = 0 ∧
      (feed (samples ++ [x]) v).timer = 1) := by
  have hw : 0 < (v.wait * 10) % UINT32 := by
    rw [Nat.mod_eq_of_lt hw2]; omega
  have hf := feed_probe samples v hu ht hw ha (by rw [hl, hn]; decide)
  rw [hl, hn] at hf
  have h1 : ¬ ((v.wait * 10) % UINT32 = 0) := by omega
  have h3 : 1 % UINT32 = 1 := by decide
  refine ⟨?_, ?_⟩
  · rw [hf]
    exact ⟨rfl, hs, rfl, ht⟩
  · rw [feed_append, hf, feed_cons, feed_nil]
    simp [on_statistics_update, scan_pause, hu, ht, h1, h3, hx, hs, MAX_FREQ_LOCK]

/-- C1, witness of the amended claim at the idle view with `wait = 5`,
`squelch = 30` and eleven samples of level `0`. -/
theorem lock_on_eleventh_sample_witness :
    ((feed (List.replicate 10 0) (idle_view 5 30)).scan_thread._freq_lock = MAX_FREQ_LOCK ∧
      (feed (List.replicate 10 0) (idle_view 5 30)).scan_thread._scanning = true ∧
      (feed (List.replicate 10 0) (idle_view 5 30)).calls = (idle_view 5 30).calls ∧
      (feed (List.replicate 10 0) (idle_view 5 30)).timer = 0) ∧
    ((feed (List.replicate 10 0 ++ [0]) (idle_view 5 30)).scan_thread._scanning = false ∧
      (feed (List.replicate 10 0 ++ [0]) (idle_view 5 30)).calls =
        (idle_view 5 30).calls ++ [Call.audio_output_start] ∧
      (feed (List.replicate 10 0 ++ [0]) (idle_view 5 30)).scan_thread._freq_lock = 0 ∧
      (feed (List.replicate 10 0 ++ [0]) (idle_view 5 30)).timer = 1) :=
  lock_on_eleventh_sample (idle_view 5 30) (List.replicate 10 0) 0
    (by decide) (by decide) (by decide) (by decide) (by decide) (by decide)
    (by decide) (by decide) (by decide)

/-- C2. From the idle state, `n` consecutive samples above squelch with
`1 ≤ n ≤ 9` followed by one sample at or below `-squelch` leave the probe
counter at `0`, the scanning flag set, the timer at `0` and the call log as it
was (no audio start); this holds for every `wait`. -/
theorem one_sample_cancels_probe (v : ScannerView) (n : Nat) (samples : List Int) (x : Int)
    (hs : v.scan_thread._scanning = true) (hu : v.scan_thread._userpause = false)
    (ht : v.timer = 0) (hl : v.scan_thread._freq_lock = 0)
    (hn : samples.length = n) (hn1 : 1 ≤ n) (hn9 : n ≤ 9)
    (ha : ∀ y ∈ samples, y > - v.squelch) (hx : x ≤ - v.squelch) :
    (feed (samples ++ [x]) v).scan_thread._freq_lock = 0 ∧
    (feed (samples ++ [x]) v).scan_thread._scanning = true ∧
    (feed (samples ++ [x]) v).scan_thread._userpause = false ∧
    (feed (samples ++ [x]) v).timer = 0 ∧
    (feed (samples ++ [x]) v).calls = v.calls := by
  by_cases hw : (v.wait * 10) % UINT32 = 0
  · rw [feed_zero_wait _ v hu ht hw hs]
    exact ⟨hl, hs, hu, ht, rfl⟩
  · have hw0 : 0 < (v.wait * 10) % UINT32 := Nat.pos_of_ne_zero hw
    have hf := feed_probe samples v hu ht hw0 ha
      (by rw [hl, hn]; simp only [MAX_FREQ_LOCK]; omega)
    rw [hl, hn] at hf
    have h1 : ¬ ((v.wait * 10) % UINT32 = 0) := by omega
    have h2 : ¬ (- v.squelch < x) := by omega
    have h3 : 0 < n := by omega
    rw [feed_append, hf, feed_cons, feed_nil]
    simp [on_statistics_update, hu, ht, h1, h2, h3, hs]

/-- C2, witness: nine samples of level `0` and one of level `-30` at the idle
view with `wait = 5`, `squelch = 30` (the case `n = 9` of the specification). -/
theorem one_sample_cancels_probe_witness :
    (feed (List.replicate 9 0 ++ [-30]) (idle_view 5 30)).scan_thread._freq_lock = 0 ∧
    (feed (List.replicate 9 0 ++ [-30]) (idle_view 5 30)).scan_thread._scanning = true ∧
    (feed (List.replicate 9 0 ++ [-30]) (idle_view 5 30)).scan_thread._userpause = false ∧
    (feed (List.replicate 9 0 ++ [-30]) (idle_view 5 30)).timer = 0 ∧
    (feed (List.replicate 9 0 ++ [-30]) (idle_view 5 30)).calls = (idle_view 5 30).calls :=
  one_sample_cancels_probe (idle_view 5 30) 9 (List.replicate 9 0) (-30)
    (by decide) (by decide) (by decide) (by decide) (by decide) (by decide)
    (by decide) (by decide) (by decide)

/-- C3. In the state the locking call leaves (scanning flag cleared, no user
pause, timer `1`, probe counter `0`), with `wait ≥ 1` and `wait * 10` within
`uint32_t`, exactly `wait * 10` further samples of any level set the scanning
flag again, with probe counter `0` and timer `0` (the audio output is stopped
on the way); after any smaller number of those samples the scanning flag is
still cleared. -/
theorem cooldown_auto_resume (v : ScannerView) (samples : List Int)
    (hs : v.scan_thread._scanning = false) (hu : v.scan_thread._userpause = false)
    (ht : v.timer = 1) (hl : v.scan_thread._freq_lock = 0)
    (hw1 : 1 ≤ v.wait) (hw2 : v.wait * 10 < UINT32)
    (hn : samples.length = v.wait * 10) :
    ((feed samples v).scan_thread._scanning = true ∧
      (feed samples v).scan_thread._freq_lock = 0 ∧
      (feed samples v).timer = 0 ∧
      (feed samples v).calls = v.calls ++ [Call.audio_output_stop]) ∧
    ∀ k, k < v.wait * 10 → (feed (samples.take k) v).scan_thread._scanning = false := by
  have hcool : ∀ k, k < v.wait * 10 →
      feed (samples.take k) v = { v with timer := v.timer + k } := by
    intro k hk
    have hlen : (samples.take k).length = k := by
      rw [List.length_take, hn]; omega
    have h := feed_cooldown (samples.take k) v hu (by omega) hw2 (by rw [hlen, ht]; omega)
    rw [hlen] at h
    exact h
  refine ⟨?_, ?_⟩
  · have hsplit : samples = samples.take (v.wait * 10 - 1) ++ samples.drop (v.wait * 10 - 1) :=
      (List.take_append_drop _ _).symm
    have hdrop : (samples.drop (v.wait * 10 - 1)).length = 1 := by
      rw [List.length_drop, hn]; omega
    obtain ⟨y, hy⟩ := List.length_eq_one.mp hdrop
    have h0 : (v.wait * 10) % UINT32 = v.wait * 10 := Nat.mod_eq_of_lt hw2
    have h1 : v.wait * 10 ≤ 1 + (v.wait * 10 - 1) := by omega
    rw [hsplit, hy, feed_append, hcool _ (by omega), feed_cons, feed_nil]
    simp [on_statistics_update, scan_resume, hu, hs, ht, h0, h1, hl]
  · intro k hk
    rw [hcool k hk]
    exact hs

/-- C3, witness: the state reached from the idle view (`wait = 5`,
`squelch = 30`) by the eleven samples that lock it, followed by fifty samples
of level `-100`. -/
theorem cooldown_auto_resume_witness :
    ((feed (List.replicate 50 (-100)) (feed (List.replicate 11 0) (idle_view 5 30))).scan_thread._scanning = true ∧
      (feed (List.replicate 50 (-100)) (feed (List.replicate 11 0) (idle_view 5 30))).scan_thread._freq_lock = 0 ∧
      (feed (List.replicate 50 (-100)) (feed (List.replicate 11 0) (idle_view 5 30))).timer = 0 ∧
      (feed (List.replicate 50 (-100)) (feed (List.replicate 11 0) (idle_view 5 30))).calls =
        (feed (List.replicate 11 0) (idle_view 5 30)).calls ++ [Call.audio_output_stop]) ∧
    ∀ k, k < (feed (List.replicate 11 0) (idle_view 5 30)).wait * 10 →
      (feed ((List.replicate 50 (-100)).take k)
        (feed (List.replicate 11 0) (idle_view 5 30))).scan_thread._scanning = false :=
  cooldown_auto_resume (feed (List.replicate 11 0) (idle_view 5 30)) (List.replicate 50 (-100))
    (by decide) (by decide) (by decide) (by decide) (by decide) (by decide) (by decide)

/-- C4. While the user pause flag is set, `on_statistics_update` returns the
view unchanged for every sample level (timer, probe counter, scanning flag,
call log and all other members), and so does any sequence of samples. -/
theorem user_pause_holds (v : ScannerView) (hu : v.scan_thread._userpause = true) :
    (∀ x : Int, on_statistics_update x v = v) ∧ ∀ samples : List Int, feed samples v = v := by
  refine ⟨fun x => ?_, fun samples => feed_userpause samples v hu⟩
  simp [on_statistics_update, hu]

/-- C4, witness: a user pause taken while locked (eleven samples of level `0`
at the idle view, then the pause button). -/
theorem user_pause_holds_witness :
    (∀ x : Int,
      on_statistics_update x
          (button_pause_on_select (feed (List.replicate 11 0) (idle_view 5 30))) =
        button_pause_on_select (feed (List.replicate 11 0) (idle_view 5 30))) ∧
    ∀ samples : List Int,
      feed samples (button_pause_on_select (feed (List.replicate 11 0) (idle_view 5 30))) =
        button_pause_on_select (feed (List.replicate 11 0) (idle_view 5 30)) :=
  user_pause_holds (button_pause_on_select (feed (List.replicate 11 0) (idle_view 5 30)))
    (by decide)

/-- C5, counterexample. The idle view paused by the user has the user pause
flag set; pressing the pause button again leaves the timer at
`wait * 10 = 50`, not `0`, and leaves the scanning flag cleared. -/
theorem resume_handler_keeps_scan_stopped :
    (button_pause_on_select (idle_view 5 30)).scan_thread._userpause = true ∧
    (button_pause_on_select (button_pause_on_select (idle_view 5 30))).timer = 50 ∧
    (button_pause_on_select (button_pause_on_select (idle_view 5 30))).scan_thread._scanning
      = false := by
  decide

/-- C5, amended. When the pause button is pressed while the user pause flag is
set, the handler sets the timer to `wait * 10` (modulo `2 ^ 32`), clears the
user pause flag and changes neither the scanning flag nor the call log; the
next statistics sample, whatever its level, then sets the timer to `0` and
sets the scanning flag. -/
theorem user_resume_takes_effect_on_next_sample (v : ScannerView)
    (hu : v.scan_thread._userpause = true) :
    (button_pause_on_select v).timer = (v.wait * 10) % UINT32 ∧
    (button_pause_on_select v).scan_thread._userpause = false ∧
    (button_pause_on_select v).scan_thread._scanning = v.scan_thread._scanning ∧
    (button_pause_on_select v).calls = v.calls ∧
    ∀ x : Int,
      (on_statistics_update x (button_pause_on_select v)).timer = 0 ∧
      (on_statistics_update x (button_pause_on_select v)).scan_thread._scanning = true ∧
      (on_statistics_update x (button_pause_on_select v)).scan_thread._userpause = false := by
  have hb : button_pause_on_select v =
      { v with
        timer := (v.wait * 10) % UINT32
        button_pause_text := "PAUSE"
        scan_thread := { v.scan_thread with _userpause := false } } := by
    simp [button_pause_on_select, hu]
  rw [hb]
  refine ⟨rfl, rfl, rfl, rfl, fun x => ?_⟩
  cases hs : v.scan_thread._scanning <;>
    simp [on_statistics_update, scan_resume, hs]

/-- C5, witness: the idle view (`wait = 5`) paused by the user. -/
theorem user_resume_takes_effect_on_next_sample_witness :
    (button_pause_on_select (button_pause_on_select (idle_view 5 30))).timer =
      ((button_pause_on_select (idle_view 5 30)).wait * 10) % UINT32 ∧
    (button_pause_on_select (button_pause_on_select (idle_view 5 30))).scan_thread._userpause
      = false ∧
    (button_pause_on_select (button_pause_on_select (idle_view 5 30))).scan_thread._scanning =
      (button_pause_on_select (idle_view 5 30)).scan_thread._scanning ∧
    (button_pause_on_select (button_pause_on_select (idle_view 5 30))).calls =
      (button_pause_on_select (idle_view 5 30)).calls ∧
    ∀ x : Int,
      (on_statistics_update x
        (button_pause_on_select (button_pause_on_select (idle_view 5 30)))).timer = 0 ∧
      (on_statistics_update x
        (button_pause_on_select (button_pause_on_select (idle_view 5 30)))).scan_thread._scanning
          = true ∧
      (on_statistics_update x
        (button_pause_on_select (button_pause_on_select (idle_view 5 30)))).scan_thread._userpause
          = false :=
  user_resume_takes_effect_on_next_sample (button_pause_on_select (idle_view 5 30)) (by decide)

/-! ## The frequency list builders: helper lemmas -/

/-- 64 bit arithmetic is exact on results inside the 64 bit range. -/
theorem wrap_int64_eq (x : Int) (h1 : INT64_MIN ≤ x) (h2 : x ≤ INT64_MAX) :
    wrap_int64 x = x := by
  simp only [wrap_int64, INT64_MIN, INT64_MAX] at *
  omega

/-- Every result of 64 bit arithmetic is at least `INT64_MIN`. -/
theorem wrap_int64_ge (x : Int) : INT64_MIN ≤ wrap_int64 x := by
  simp only [wrap_int64, INT64_MIN]
  omega

/-- Every result of 64 bit arithmetic is at most `INT64_MAX`. -/
theorem wrap_int64_le_max (x : Int) : wrap_int64 x ≤ INT64_MAX := by
  simp only [wrap_int64, INT64_MAX]
  omega

/-- A wrapped result is never above an exact result that is at least
`INT64_MIN`. -/
theorem wrap_int64_le (x : Int) (h : INT64_MIN ≤ x) : wrap_int64 x ≤ x := by
  simp only [wrap_int64, INT64_MIN] at *
  omega

theorem push_all_nil (v : ScannerView) : push_all v [] = v := by
  cases v; simp [push_all]

theorem push_all_cons (v : ScannerView) (f : Int) (fs : List Int) :
    push_all v (f :: fs) =
      push_all
        { v with
          frequency_list := v.frequency_list ++ [f]
          description_list := v.description_list ++ [""] } fs := by
  simp [push_all, List.replicate_succ]

/-- The arithmetic progression `f, f + step, ...` of `k` terms. -/
theorem progression_succ (f : Int) (step k : Nat) :
    (List.range (k + 1)).map (fun i : Nat => f + (i : Int) * step) =
      f :: (List.range k).map (fun i : Nat => (f + step) + (i : Int) * step) := by
  rw [List.range_succ_eq_map, List.map_cons, List.map_map]
  simp only [Nat.cast_zero, zero_mul, add_zero, List.cons.injEq, true_and]
  apply List.map_congr_left
  intro i _
  simp only [Function.comp, Nat.succ_eq_add_one, Nat.cast_add, Nat.cast_one]
  ring

/-- Once its condition fails the manual loop returns at once. -/
theorem manual_range_loop_stop (fuel : Nat) (f : Int) (v : ScannerView)
    (h : ¬ (v.frequency_list.length < MAX_DB_ENTRY ∧ f ≤ v.frequency_range_max)) :
    manual_range_loop fuel f v = (f, v) := by
  cases fuel with
  | zero => rfl
  | succ n => simp only [manual_range_loop, h, if_false]

/-- The manual loop runs `k` iterations as long as there is room and the
frequencies stay within the range, when no addition leaves the 64 bit
range. -/
theorem manual_range_loop_steps (k : Nat) :
    ∀ (fuel : Nat) (f : Int) (v : ScannerView), k ≤ fuel →
      v.frequency_list.length + k ≤ MAX_DB_ENTRY →
      INT64_MIN ≤ f → f + (k : Int) * v.def_step ≤ INT64_MAX →
      (∀ i : Nat, i < k → f + (i : Int) * v.def_step ≤ v.frequency_range_max) →
      manual_range_loop fuel f v =
        manual_range_loop (fuel - k) (f + (k : Int) * v.def_step)
          (push_all v ((List.range k).map (fun i : Nat => f + (i : Int) * v.def_step))) := by
  induction k with
  | zero =>
    intro fuel f v _ _ _ _ _
    simp [push_all_nil]
  | succ k ih =>
    intro fuel f v hfuel hroom hlo hhi hle
    obtain ⟨fuel, rfl⟩ : ∃ n, fuel = n + 1 := ⟨fuel - 1, by omega⟩
    have hcond : v.frequency_list.length < MAX_DB_ENTRY ∧ f ≤ v.frequency_range_max := by
      refine ⟨by omega, ?_⟩
      simpa using hle 0 (by omega)
    have hk0 : (0 : Int) ≤ (k : Int) * v.def_step :=
      mul_nonneg (Int.ofNat_nonneg k) (Int.ofNat_nonneg v.def_step)
    have hsum : f + v.def_step + (k : Int) * v.def_step ≤ INT64_MAX := by
      have : f + ((k + 1 : Nat) : Int) * v.def_step =
          f + v.def_step + (k : Int) * v.def_step := by
        rw [Nat.cast_add, Nat.cast_one]; ring
      rw [← this]; exact hhi
    have hw : wrap_int64 (f + v.def_step) = f + v.def_step :=
      wrap_int64_eq _ (by omega) (by omega)
    rw [manual_range_loop, if_pos hcond, hw]
    refine (ih fuel _ _ (by omega) ?_ ?_ ?_ ?_).trans ?_
    · simp only [List.length_append, List.length_singleton]; omega
    · omega
    · exact hsum
    · intro i hi
      have := hle (i + 1) (by omega)
      simp only [Nat.cast_add, Nat.cast_one] at this
      simp only
      linarith
    · simp only [progression_succ, push_all_cons, Nat.add_sub_add_right, Nat.cast_add,
        Nat.cast_one]
      congr 1
      ring

/-- Bounds from integer division: `i * step ≤ a` for `i ≤ a / step`. -/
theorem mul_le_of_le_div (a : Int) (step i : Nat) (hstep : 0 < step) (ha : 0 ≤ a)
    (hi : i ≤ (a / (step : Int)).toNat) : (i : Int) * step ≤ a := by
  have hs : (0 : Int) < step := by exact_mod_cast hstep
  have hq : 0 ≤ a / (step : Int) := Int.ediv_nonneg ha hs.le
  have h1 : (i : Int) ≤ a / (step : Int) := by
    have : ((a / (step : Int)).toNat : Int) = a / (step : Int) := Int.toNat_of_nonneg hq
    rw [← this]; exact_mod_cast hi
  calc (i : Int) * step ≤ (a / (step : Int)) * step := mul_le_mul_of_nonneg_right h1 hs.le
    _ ≤ a := Int.ediv_mul_le a hs.ne'

/-- Bounds from integer division: `a < (a / step + 1) * step`. -/
theorem lt_succ_div_mul (a : Int) (step : Nat) (hstep : 0 < step) (ha : 0 ≤ a) :
    a < (((a / (step : Int)).toNat + 1 : Nat) : Int) * step := by
  have hs : (0 : Int) < step := by exact_mod_cast hstep
  have hq : 0 ≤ a / (step : Int) := Int.ediv_nonneg ha hs.le
  have : ((a / (step : Int)).toNat : Int) = a / (step : Int) := Int.toNat_of_nonneg hq
  rw [Nat.cast_add, this, Nat.cast_one]
  exact Int.lt_ediv_add_one_mul_self a hs

/-- The result of the manual loop started on an empty list, when none of its
additions leaves the 64 bit range: the first
`min MAX_DB_ENTRY ((max - min) / step + 1)` terms of the progression. -/
theorem manual_range_loop_result (f : Int) (v : ScannerView)
    (hempty : v.frequency_list = []) (hstep : 0 < v.def_step)
    (hle : f ≤ v.frequency_range_max) (hlo : INT64_MIN ≤ f)
    (hhi : f + ((min MAX_DB_ENTRY
        (((v.frequency_range_max - f) / (v.def_step : Int)).toNat + 1) : Nat) : Int) *
          v.def_step ≤ INT64_MAX) :
    (manual_range_loop MAX_DB_ENTRY f v).2 =
      push_all v
        ((List.range (min MAX_DB_ENTRY
            (((v.frequency_range_max - f) / (v.def_step : Int)).toNat + 1))).map
          (fun i : Nat => f + (i : Int) * v.def_step)) := by
  have ha : 0 ≤ v.frequency_range_max - f := by omega
  have hlen : v.frequency_list.length = 0 := by rw [hempty]; rfl
  rw [manual_range_loop_steps _ MAX_DB_ENTRY f v (Nat.min_le_left _ _)
    (by rw [hlen]; simp) hlo hhi ?_]
  · rw [manual_range_loop_stop]
    intro hc
    have hl : (push_all v ((List.range (min MAX_DB_ENTRY
        (((v.frequency_range_max - f) / (v.def_step : Int)).toNat + 1))).map
          (fun i : Nat => f + (i : Int) * v.def_step))).frequency_list.length =
        min MAX_DB_ENTRY (((v.frequency_range_max - f) / (v.def_step : Int)).toNat + 1) := by
      simp [push_all, hempty]
    rw [hl] at hc
    have hmin : min MAX_DB_ENTRY
        (((v.frequency_range_max - f) / (v.def_step : Int)).toNat + 1) =
        ((v.frequency_range_max - f) / (v.def_step : Int)).toNat + 1 := by
      have := hc.1
      omega
    have h2 := hc.2
    rw [hmin] at h2
    have h3 := lt_succ_div_mul (v.frequency_range_max - f) v.def_step hstep ha
    have h4 : f + ((((v.frequency_range_max - f) / (v.def_step : Int)).toNat + 1 : Nat) : Int)
        * v.def_step ≤ v.frequency_range_max := h2
    linarith
  · intro i hi
    have h1 := mul_le_of_le_div (v.frequency_range_max - f) v.def_step i hstep ha
      (by have := Nat.min_le_right MAX_DB_ENTRY
            (((v.frequency_range_max - f) / (v.def_step : Int)).toNat + 1)
          omega)
    linarith

/-- The manual loop with `fuel` iterations allowed, enough to fill the list,
ends because its condition fails, not because the iterations run out. -/
theorem manual_range_loop_exit (fuel : Nat) :
    ∀ (f : Int) (v : ScannerView), MAX_DB_ENTRY ≤ v.frequency_list.length + fuel →
      ¬ ((manual_range_loop fuel f v).2.frequency_list.length < MAX_DB_ENTRY ∧
          (manual_range_loop fuel f v).1 ≤
            (manual_range_loop fuel f v).2.frequency_range_max) := by
  induction fuel with
  | zero =>
    intro f v h
    simp only [manual_range_loop]
    omega
  | succ n ih =>
    intro f v h
    by_cases hc : v.frequency_list.length < MAX_DB_ENTRY ∧ f ≤ v.frequency_range_max
    · rw [manual_range_loop, if_pos hc]
      apply ih
      simp only [List.length_append, List.length_singleton]
      omega
    · rw [manual_range_loop, if_neg hc]
      exact hc

theorem show_max_frequency_list (fmt : StringFormat) (v : ScannerView) :
    (show_max fmt v).frequency_list = v.frequency_list := by
  unfold show_max; split <;> rfl

theorem show_max_description_list (fmt : StringFormat) (v : ScannerView) :
    (show_max fmt v).description_list = v.description_list := by
  unfold show_max; split <;> rfl

theorem show_max_def_step (fmt : StringFormat) (v : ScannerView) :
    (show_max fmt v).def_step = v.def_step := by
  unfold show_max; split <;> rfl

/-- The frequency list the manual scan handler leaves for a valid range. -/
theorem manual_scan_frequency_list (fmt : StringFormat) (v : ScannerView)
    (hmin : v.frequency_range_min ≠ 0) (hmax : v.frequency_range_max ≠ 0)
    (hle : v.frequency_range_min ≤ v.frequency_range_max) (hstep : 0 < v.step_mode_value)
    (hlo : INT64_MIN ≤ v.frequency_range_min)
    (hhi : v.frequency_range_min + ((min MAX_DB_ENTRY
        (((v.frequency_range_max - v.frequency_range_min) /
          (v.step_mode_value : Int)).toNat + 1) : Nat) : Int) * v.step_mode_value
        ≤ INT64_MAX) :
    (button_manual_scan_on_select fmt v).frequency_list =
      (List.range (min MAX_DB_ENTRY
          (((v.frequency_range_max - v.frequency_range_min) /
            (v.step_mode_value : Int)).toNat + 1))).map
        (fun i : Nat => v.frequency_range_min + (i : Int) * v.step_mode_value) ∧
    (button_manual_scan_on_select fmt v).scan_thread.frequency_list_ =
      (button_manual_scan_on_select fmt v).frequency_list := by
  have h1 : ¬ (v.frequency_range_min = 0 ∨ v.frequency_range_max = 0) := by
    rintro (h | h)
    · exact hmin h
    · exact hmax h
  have h2 : ¬ (v.frequency_range_min > v.frequency_range_max) := by omega
  have hv5 : ∀ w : ScannerView, w.frequency_range_min = v.frequency_range_min →
      w.frequency_range_max = v.frequency_range_max → w.def_step = v.step_mode_value →
      w.frequency_list = [] →
      (manual_range_loop MAX_DB_ENTRY w.frequency_range_min w).2.frequency_list =
        (List.range (min MAX_DB_ENTRY
          (((v.frequency_range_max - v.frequency_range_min) /
            (v.step_mode_value : Int)).toNat + 1))).map
        (fun i : Nat => v.frequency_range_min + (i : Int) * v.step_mode_value) := by
    intro w e1 e2 e3 e4
    rw [manual_range_loop_result _ w e4 (by rw [e3]; exact hstep) (by rw [e1, e2]; exact hle)
      (by rw [e1]; exact hlo) (by rw [e1, e2, e3]; exact hhi)]
    simp only [push_all, e1, e2, e3, e4, List.nil_append]
  have hstop_min : (scan_thread_stop
      { v with calls := v.calls ++ [Call.audio_output_stop] }).frequency_range_min =
      v.frequency_range_min := by
    unfold scan_thread_stop; split <;> rfl
  have hstop_max : (scan_thread_stop
      { v with calls := v.calls ++ [Call.audio_output_stop] }).frequency_range_max =
      v.frequency_range_max := by
    unfold scan_thread_stop; split <;> rfl
  have hstop_step : (scan_thread_stop
      { v with calls := v.calls ++ [Call.audio_output_stop] }).step_mode_value =
      v.step_mode_value := by
    unfold scan_thread_stop; split <;> rfl
  simp only [button_manual_scan_on_select, if_neg h1, if_neg h2, start_scan_thread,
    ScannerThread.create, show_max_frequency_list, and_true]
  exact hv5 _ hstop_min hstop_max hstop_step rfl

/-! ## The frequency list builders: manual range -/

set_option maxRecDepth 100000 in
/-- C6, counterexample. The range from `9223372036854770000` to `INT64_MAX`
with the step `10000` meets the premises of the claim (`min ≠ 0`, `max ≠ 0`,
`min ≤ max`, `step > 0`) and the claimed length is
`min 500 ((max - min) / step + 1) = 1`; but `frequency += def_step` leaves the
64 bit range after the first entry, the wrapped value is `≤ max` again, and
the handler fills the list to 500 entries. -/
theorem manual_scan_overflow_fills_list :
    (manual_view 9223372036854770000 9223372036854775807 10000).frequency_range_min ≠ 0 ∧
    (manual_view 9223372036854770000 9223372036854775807 10000).frequency_range_max ≠ 0 ∧
    (manual_view 9223372036854770000 9223372036854775807 10000).frequency_range_min ≤
      (manual_view 9223372036854770000 9223372036854775807 10000).frequency_range_max ∧
    (manual_view 9223372036854770000 9223372036854775807 10000).frequency_range_max =
      INT64_MAX ∧
    0 < (manual_view 9223372036854770000 9223372036854775807 10000).step_mode_value ∧
    min MAX_DB_ENTRY
      (((9223372036854775807 - 9223372036854770000 : Int) / (10000 : Int)).toNat + 1) = 1 ∧
    (button_manual_scan_on_select decimal_format
      (manual_view 9223372036854770000 9223372036854775807 10000)).frequency_list.length
        = 500 ∧
    (button_manual_scan_on_select decimal_format
      (manual_view 9223372036854770000 9223372036854775807 10000)).frequency_list[1]?
        = some (-9223372036854771616) := by
  decide

/-- C6, amended. For a range of 64 bit frequencies with `min ≠ 0`, `max ≠ 0`,
`min ≤ max` and a selected step `> 0`, write
`n = min 500 ((max - min) / step + 1)`. If none of the `n` additions
`frequency += def_step` of the loop leaves the 64 bit range, that is
`min + n * step ≤ INT64_MAX`, the manual scan handler leaves `frequency_list`
equal to the terms `min + i * step` for `i < n`, in that order: the length is
`n`, entry `i` is `min + i * step`, every entry is `≤ max`, and the new scan
thread gets the same list. For `min = 100000000`, `max = 100090000`,
`step = 10000` the list is the ten entries
`100000000, 100010000, ..., 100090000`. -/
theorem manual_scan_enumerates_range (fmt : StringFormat) (v : ScannerView)
    (hmin : v.frequency_range_min ≠ 0) (hmax : v.frequency_range_max ≠ 0)
    (hle : v.frequency_range_min ≤ v.frequency_range_max) (hstep : 0 < v.step_mode_value)
    (hlo : INT64_MIN ≤ v.frequency_range_min)
    (hhi : v.frequency_range_min + ((min MAX_DB_ENTRY
        (((v.frequency_range_max - v.frequency_range_min) /
          (v.step_mode_value : Int)).toNat + 1) : Nat) : Int) * v.step_mode_value
        ≤ INT64_MAX) :
    (button_manual_scan_on_select fmt v).frequency_list =
      (List.range (min MAX_DB_ENTRY
          (((v.frequency_range_max - v.frequency_range_min) /
            (v.step_mode_value : Int)).toNat + 1))).map
        (fun i : Nat => v.frequency_range_min + (i : Int) * v.step_mode_value) ∧
    (button_manual_scan_on_select fmt v).frequency_list.length =
      min MAX_DB_ENTRY
        (((v.frequency_range_max - v.frequency_range_min) /
          (v.step_mode_value : Int)).toNat + 1) ∧
    (∀ i : Nat, i < (button_manual_scan_on_select fmt v).frequency_list.length →
      (button_manual_scan_on_select fmt v).frequency_list[i]? =
        some (v.frequency_range_min + (i : Int) * v.step_mode_value)) ∧
    (∀ f ∈ (button_manual_scan_on_select fmt v).frequency_list, f ≤ v.frequency_range_max) ∧
    (button_manual_scan_on_select fmt v).scan_thread.frequency_list_ =
      (button_manual_scan_on_select fmt v).frequency_list ∧
    (v.frequency_range_min = 100000000 → v.frequency_range_max = 100090000 →
      v.step_mode_value = 10000 →
      (button_manual_scan_on_select fmt v).frequency_list =
        [100000000, 100010000, 100020000, 100030000, 100040000, 100050000, 100060000,
         100070000, 100080000, 100090000]) := by
  obtain ⟨hlist, hthread⟩ := manual_scan_frequency_list fmt v hmin hmax hle hstep hlo hhi
  refine ⟨hlist, ?_, ?_, ?_, hthread, ?_⟩
  · rw [hlist]; simp
  · intro i hi
    rw [hlist] at hi ⊢
    simp only [List.length_map, List.length_range] at hi
    simp [List.getElem?_map, List.getElem?_range hi]
  · intro f hf
    rw [hlist] at hf
    simp only [List.mem_map, List.mem_range] at hf
    obtain ⟨i, hi, rfl⟩ := hf
    have h1 := mul_le_of_le_div (v.frequency_range_max - v.frequency_range_min)
      v.step_mode_value i hstep (by omega)
      (by have := Nat.min_le_right MAX_DB_ENTRY
            (((v.frequency_range_max - v.frequency_range_min) /
              (v.step_mode_value : Int)).toNat + 1)
          omega)
    linarith
  · intro e1 e2 e3
    rw [hlist, e1, e2, e3]
    decide

/-- C6, witness: the range of the specification, `min = 100000000`,
`max = 100090000`, `step = 10000`. -/
theorem manual_scan_enumerates_range_witness :
    (button_manual_scan_on_select decimal_format
        (manual_view 100000000 100090000 10000)).frequency_list =
      [100000000, 100010000, 100020000, 100030000, 100040000, 100050000, 100060000,
       100070000, 100080000, 100090000] :=
  (manual_scan_enumerates_range decimal_format (manual_view 100000000 100090000 10000)
    (by decide) (by decide) (by decide) (by decide) (by decide)
    (by decide)).2.2.2.2.2 rfl rfl rfl

/-- C7. If `min = 0` or `max = 0` or `min > max`, the manual scan handler only
shows an error dialog: the call log gains one `display_modal "Error"` call and
nothing else (no thread stop, no thread start, no audio call), and
`frequency_list`, `description_list` and the scan thread are unchanged. -/
theorem invalid_range_rejected (fmt : StringFormat) (v : ScannerView)
    (h : v.frequency_range_min = 0 ∨ v.frequency_range_max = 0 ∨
      v.frequency_range_min > v.frequency_range_max) :
    ∃ message : String,
      button_manual_scan_on_select fmt v =
        { v with calls := v.calls ++ [Call.display_modal "Error" message] } ∧
      (button_manual_scan_on_select fmt v).calls =
        v.calls ++ [Call.display_modal "Error" message] ∧
      (button_manual_scan_on_select fmt v).frequency_list = v.frequency_list ∧
      (button_manual_scan_on_select fmt v).description_list = v.description_list ∧
      (button_manual_scan_on_select fmt v).scan_thread = v.scan_thread := by
  by_cases h1 : v.frequency_range_min = 0 ∨ v.frequency_range_max = 0
  · refine ⟨"Both START and END freqs\nneed a value", ?_⟩
    simp only [button_manual_scan_on_select, if_pos h1, and_self]
  · have h2 : v.frequency_range_min > v.frequency_range_max := by
      rcases h with h | h | h
      · exact absurd (Or.inl h) h1
      · exact absurd (Or.inr h) h1
      · exact h
    refine ⟨"END freq\nis lower than START", ?_⟩
    simp only [button_manual_scan_on_select, if_neg h1, if_pos h2, and_self]

/-- C7, witness: the range from 200 MHz down to 100 MHz (`min > max`). -/
theorem invalid_range_rejected_witness :
    ∃ message : String,
      button_manual_scan_on_select decimal_format (manual_view 200000000 100000000 10000) =
        { manual_view 200000000 100000000 10000 with
          calls := (manual_view 200000000 100000000 10000).calls ++
            [Call.display_modal "Error" message] } ∧
      (button_manual_scan_on_select decimal_format (manual_view 200000000 100000000 10000)).calls =
        (manual_view 200000000 100000000 10000).calls ++ [Call.display_modal "Error" message] ∧
      (button_manual_scan_on_select decimal_format
          (manual_view 200000000 100000000 10000)).frequency_list =
        (manual_view 200000000 100000000 10000).frequency_list ∧
      (button_manual_scan_on_select decimal_format
          (manual_view 200000000 100000000 10000)).description_list =
        (manual_view 200000000 100000000 10000).description_list ∧
      (button_manual_scan_on_select decimal_format
          (manual_view 200000000 100000000 10000)).scan_thread =
        (manual_view 200000000 100000000 10000).scan_thread :=
  invalid_range_rejected decimal_format (manual_view 200000000 100000000 10000)
    (Or.inr (Or.inr (by decide)))

/-! ## The frequency list builders: database -/

/-- Once its condition fails the range loop returns at once. -/
theorem range_loop_stop (fuel : Nat) (a b : Int) (v : ScannerView)
    (h : ¬ (v.frequency_list.length < MAX_DB_ENTRY ∧ a ≤ b)) :
    range_loop fuel a b v = (a, v) := by
  cases fuel with
  | zero => rfl
  | succ n => simp only [range_loop, h, if_false]

/-- The range loop runs `k` iterations as long as there is room and the
start values stay `≤ b`; when no addition leaves the 64 bit range it pushes
`a + step, a + 2 * step, ...`. -/
theorem range_loop_steps (k : Nat) :
    ∀ (fuel : Nat) (a b : Int) (v : ScannerView), k ≤ fuel →
      v.frequency_list.length + k ≤ MAX_DB_ENTRY →
      INT64_MIN ≤ a → a + (k : Int) * v.def_step ≤ INT64_MAX →
      (∀ i : Nat, i < k → a + (i : Int) * v.def_step ≤ b) →
      range_loop fuel a b v =
        range_loop (fuel - k) (a + (k : Int) * v.def_step) b
          (push_all v
            ((List.range k).map (fun i : Nat => (a + v.def_step) + (i : Int) * v.def_step))) := by
  induction k with
  | zero =>
    intro fuel a b v _ _ _ _ _
    simp [push_all_nil]
  | succ k ih =>
    intro fuel a b v hfuel hroom hlo hhi hle
    obtain ⟨fuel, rfl⟩ : ∃ n, fuel = n + 1 := ⟨fuel - 1, by omega⟩
    have hcond : v.frequency_list.length < MAX_DB_ENTRY ∧ a ≤ b := by
      refine ⟨by omega, ?_⟩
      simpa using hle 0 (by omega)
    have hk0 : (0 : Int) ≤ (k : Int) * v.def_step :=
      mul_nonneg (Int.ofNat_nonneg k) (Int.ofNat_nonneg v.def_step)
    have hsum : a + v.def_step + (k : Int) * v.def_step ≤ INT64_MAX := by
      have : a + ((k + 1 : Nat) : Int) * v.def_step =
          a + v.def_step + (k : Int) * v.def_step := by
        rw [Nat.cast_add, Nat.cast_one]; ring
      rw [← this]; exact hhi
    have hw : wrap_int64 (a + v.def_step) = a + v.def_step :=
      wrap_int64_eq _ (by omega) (by omega)
    rw [range_loop, if_pos hcond, hw]
    refine (ih fuel _ _ _ (by omega) ?_ ?_ ?_ ?_).trans ?_
    · simp only [List.length_append, List.length_singleton]; omega
    · omega
    · exact hsum
    · intro i hi
      have := hle (i + 1) (by omega)
      simp only [Nat.cast_add, Nat.cast_one] at this
      simp only
      linarith
    · simp only [progression_succ, push_all_cons, Nat.add_sub_add_right, Nat.cast_add,
        Nat.cast_one]
      congr 1
      ring

/-- The result of the range loop when none of its additions leaves the 64 bit
range: it pushes as many terms of `a + step, a + 2 * step, ...` as there are
start values `≤ b`, up to the room left. -/
theorem range_loop_result (a b : Int) (v : ScannerView)
    (hroom : v.frequency_list.length ≤ MAX_DB_ENTRY) (hstep : 0 < v.def_step)
    (hlo : INT64_MIN ≤ a)
    (hhi : a + ((min (MAX_DB_ENTRY - v.frequency_list.length)
        (if a ≤ b then ((b - a) / (v.def_step : Int)).toNat + 1 else 0) : Nat) : Int) *
          v.def_step ≤ INT64_MAX) :
    (range_loop MAX_DB_ENTRY a b v).2 =
      push_all v
        ((List.range (min (MAX_DB_ENTRY - v.frequency_list.length)
            (if a ≤ b then ((b - a) / (v.def_step : Int)).toNat + 1 else 0))).map
          (fun i : Nat => (a + v.def_step) + (i : Int) * v.def_step)) := by
  generalize hk : min (MAX_DB_ENTRY - v.frequency_list.length)
    (if a ≤ b then ((b - a) / (v.def_step : Int)).toNat + 1 else 0) = k at hhi ⊢
  have hk1 : k ≤ MAX_DB_ENTRY - v.frequency_list.length := by
    rw [← hk]; exact Nat.min_le_left _ _
  have hk2 : k ≤ (if a ≤ b then ((b - a) / (v.def_step : Int)).toNat + 1 else 0) := by
    rw [← hk]; exact Nat.min_le_right _ _
  have hk3 : v.frequency_list.length + k < MAX_DB_ENTRY →
      k = (if a ≤ b then ((b - a) / (v.def_step : Int)).toNat + 1 else 0) := by
    intro h; rw [← hk] at h ⊢; omega
  have hle : ∀ i : Nat, i < k → a + (i : Int) * v.def_step ≤ b := by
    intro i hi
    by_cases hab : a ≤ b
    · rw [if_pos hab] at hk2
      have h1 := mul_le_of_le_div (b - a) v.def_step i hstep (by omega) (by omega)
      linarith
    · rw [if_neg hab] at hk2
      omega
  rw [range_loop_steps k MAX_DB_ENTRY a b v (by omega) (by omega) hlo hhi hle,
    range_loop_stop]
  intro hc
  have hl : (push_all v ((List.range k).map
      (fun i : Nat => (a + v.def_step) + (i : Int) * v.def_step))).frequency_list.length =
      v.frequency_list.length + k := by
    simp [push_all]
  rw [hl] at hc
  obtain ⟨hc1, hc2⟩ := hc
  have hk4 := hk3 hc1
  by_cases hab : a ≤ b
  · rw [if_pos hab] at hk4
    have h3 := lt_succ_div_mul (b - a) v.def_step hstep (by omega)
    rw [hk4] at hc2
    linarith
  · rw [if_neg hab] at hk4
    rw [hk4] at hc2
    simp only [Nat.cast_zero, zero_mul, add_zero] at hc2
    exact hab hc2

/-- The range loop never changes `def_step`. -/
theorem range_loop_def_step (fuel : Nat) :
    ∀ (a b : Int) (v : ScannerView), (range_loop fuel a b v).2.def_step = v.def_step := by
  induction fuel with
  | zero => intro a b v; rfl
  | succ n ih =>
    intro a b v
    by_cases hc : v.frequency_list.length < MAX_DB_ENTRY ∧ a ≤ b
    · rw [range_loop, if_pos hc, ih]
    · rw [range_loop, if_neg hc]

/-- The range loop never shortens the list. -/
theorem range_loop_length_mono (fuel : Nat) :
    ∀ (a b : Int) (v : ScannerView),
      v.frequency_list.length ≤ (range_loop fuel a b v).2.frequency_list.length := by
  induction fuel with
  | zero => intro a b v; exact Nat.le_refl _
  | succ n ih =>
    intro a b v
    by_cases hc : v.frequency_list.length < MAX_DB_ENTRY ∧ a ≤ b
    · rw [range_loop, if_pos hc]
      refine Nat.le_trans ?_ (ih _ _ _)
      simp only [List.length_append, List.length_singleton]
      omega
    · rw [range_loop, if_neg hc]

/-- The range loop never grows the list beyond `MAX_DB_ENTRY`, with or without
overflow of the additions. -/
theorem range_loop_length_le (fuel : Nat) :
    ∀ (a b : Int) (v : ScannerView), v.frequency_list.length ≤ MAX_DB_ENTRY →
      (range_loop fuel a b v).2.frequency_list.length ≤ MAX_DB_ENTRY := by
  induction fuel with
  | zero => intro a b v h; exact h
  | succ n ih =>
    intro a b v h
    by_cases hc : v.frequency_list.length < MAX_DB_ENTRY ∧ a ≤ b
    · rw [range_loop, if_pos hc]
      apply ih
      simp only [List.length_append, List.length_singleton]
      omega
    · rw [range_loop, if_neg hc]
      exact h

/-- The range loop runs at least the `k` iterations whose exact start values
`a + i * step` are `≤ b`, also when an addition wraps: a wrapped start value
is never above the exact one. -/
theorem range_loop_length_lower (k : Nat) :
    ∀ (fuel : Nat) (a b : Int) (v : ScannerView), k ≤ fuel →
      v.frequency_list.length + k ≤ MAX_DB_ENTRY → INT64_MIN ≤ a →
      (∀ i : Nat, i < k → a + (i : Int) * v.def_step ≤ b) →
      v.frequency_list.length + k ≤ (range_loop fuel a b v).2.frequency_list.length := by
  induction k with
  | zero =>
    intro fuel a b v _ _ _ _
    exact range_loop_length_mono fuel a b v
  | succ k ih =>
    intro fuel a b v hfuel hroom hlo hle
    obtain ⟨fuel, rfl⟩ : ∃ n, fuel = n + 1 := ⟨fuel - 1, by omega⟩
    have hcond : v.frequency_list.length < MAX_DB_ENTRY ∧ a ≤ b := by
      refine ⟨by omega, ?_⟩
      simpa using hle 0 (by omega)
    have hwle : wrap_int64 (a + v.def_step) ≤ a + v.def_step :=
      wrap_int64_le _ (by omega)
    rw [range_loop, if_pos hcond]
    have h := ih fuel (wrap_int64 (a + v.def_step)) b
      { v with
        frequency_list := v.frequency_list ++ [wrap_int64 (a + v.def_step)]
        description_list := v.description_list ++ [""] }
      (by omega)
      (by simp only [List.length_append, List.length_singleton]; omega)
      (wrap_int64_ge _)
      (by
        intro i hi
        have := hle (i + 1) (by omega)
        simp only [Nat.cast_add, Nat.cast_one] at this
        simp only
        linarith)
    simp only [List.length_append, List.length_singleton] at h
    omega

/-- A lower bound for the length after the range loop that holds with or
without overflow: the exact count of start values `≤ b`, up to the room
left. -/
theorem range_loop_length_ge (a b : Int) (v : ScannerView)
    (hroom : v.frequency_list.length ≤ MAX_DB_ENTRY) (hstep : 0 < v.def_step)
    (hlo : INT64_MIN ≤ a) :
    min MAX_DB_ENTRY (v.frequency_list.length +
        (if a ≤ b then ((b - a) / (v.def_step : Int)).toNat + 1 else 0)) ≤
      (range_loop MAX_DB_ENTRY a b v).2.frequency_list.length := by
  generalize hk : min (MAX_DB_ENTRY - v.frequency_list.length)
    (if a ≤ b then ((b - a) / (v.def_step : Int)).toNat + 1 else 0) = k
  have hk1 : k ≤ MAX_DB_ENTRY - v.frequency_list.length := by
    rw [← hk]; exact Nat.min_le_left _ _
  have hk2 : k ≤ (if a ≤ b then ((b - a) / (v.def_step : Int)).toNat + 1 else 0) := by
    rw [← hk]; exact Nat.min_le_right _ _
  have hle : ∀ i : Nat, i < k → a + (i : Int) * v.def_step ≤ b := by
    intro i hi
    by_cases hab : a ≤ b
    · rw [if_pos hab] at hk2
      have h1 := mul_le_of_le_div (b - a) v.def_step i hstep (by omega) (by omega)
      linarith
    · rw [if_neg hab] at hk2
      omega
  have h := range_loop_length_lower k MAX_DB_ENTRY a b v (by omega) (by omega) hlo hle
  rw [← hk] at h
  omega

/-- The range loop with `fuel` iterations allowed, enough to fill the list,
ends because its condition fails, not because the iterations run out. -/
theorem range_loop_exit (fuel : Nat) :
    ∀ (a b : Int) (v : ScannerView), MAX_DB_ENTRY ≤ v.frequency_list.length + fuel →
      ¬ ((range_loop fuel a b v).2.frequency_list.length < MAX_DB_ENTRY ∧
          (range_loop fuel a b v).1 ≤ b) := by
  induction fuel with
  | zero =>
    intro a b v h
    simp only [range_loop]
    omega
  | succ n ih =>
    intro a b v h
    by_cases hc : v.frequency_list.length < MAX_DB_ENTRY ∧ a ≤ b
    · rw [range_loop, if_pos hc]
      apply ih
      simp only [List.length_append, List.length_singleton]
      omega
    · rw [range_loop, if_neg hc]
      exact hc

theorem entry_step_switch_pos (step : freqman_entry_step) (def_step : Nat)
    (h : 0 < def_step) : 0 < entry_step_switch step def_step := by
  cases step <;> simp [entry_step_switch, h]

theorem step_after_pos (def_step : Nat) (entry : freqman_entry) (h : 0 < def_step) :
    0 < step_after def_step entry := by
  unfold step_after
  split
  · exact entry_step_switch_pos _ _ h
  · exact h

theorem entry_step_switch_le (step : freqman_entry_step) (def_step : Nat)
    (h : def_step ≤ MAX_STEP) : entry_step_switch step def_step ≤ MAX_STEP := by
  cases step <;> simp [entry_step_switch, MAX_STEP] at * <;> exact h

theorem step_after_le (def_step : Nat) (entry : freqman_entry) (h : def_step ≤ MAX_STEP) :
    step_after def_step entry ≤ MAX_STEP := by
  unfold step_after
  split
  · exact entry_step_switch_le _ _ h
  · exact h

/-- The exact start values of `k ≤ (b - a) / step + 1` iterations end at most
one step above `b`. -/
theorem steps_le_end_add_step (a b : Int) (step k : Nat) (hstep : 0 < step) (hab : a ≤ b)
    (hk : k ≤ ((b - a) / (step : Int)).toNat + 1) : a + (k : Int) * step ≤ b + step := by
  cases k with
  | zero =>
    have : (0 : Int) ≤ (step : Int) := Int.ofNat_nonneg step
    simp only [Nat.cast_zero, zero_mul, add_zero]
    omega
  | succ j =>
    have h1 := mul_le_of_le_div (b - a) step j hstep (by omega) (by omega)
    have : ((j + 1 : Nat) : Int) * step = (j : Int) * step + step := by
      rw [Nat.cast_add, Nat.cast_one]; ring
    rw [this]
    linarith

/-- One record that finds room: the step afterwards, the cap, and the lower
bound for the length that holds with or without overflow when the start of a
range is a 64 bit value. -/
theorem learn_entry_spec (fmt : StringFormat) (entry : freqman_entry) (v : ScannerView)
    (hroom : v.frequency_list.length < MAX_DB_ENTRY) (hstep : 0 < v.def_step) :
    (learn_entry fmt entry v).def_step = step_after v.def_step entry ∧
    (learn_entry fmt entry v).frequency_list.length ≤ MAX_DB_ENTRY ∧
    (INT64_MIN ≤ entry.frequency_a →
      min MAX_DB_ENTRY (v.frequency_list.length + uncapped_entry_count v.def_step entry) ≤
        (learn_entry fmt entry v).frequency_list.length) := by
  cases ht : entry.type with
  | SINGLE =>
    simp only [learn_entry, ht, step_after, uncapped_entry_count, List.length_append,
      List.length_singleton, true_and]
    omega
  | other =>
    simp only [learn_entry, ht, step_after, uncapped_entry_count, true_and]
    omega
  | RANGE =>
    have hpos := entry_step_switch_pos entry.step v.def_step hstep
    simp only [learn_entry, ht, step_after, uncapped_entry_count]
    refine ⟨range_loop_def_step _ _ _ _, ?_, ?_⟩
    · apply range_loop_length_le
      simp only [List.length_append, List.length_singleton]
      omega
    · intro hlo
      have h := range_loop_length_ge entry.frequency_a entry.frequency_b
        { v with
          def_step := entry_step_switch entry.step v.def_step
          frequency_list := v.frequency_list ++ [entry.frequency_a]
          description_list := v.description_list ++
            ["R:" ++ fmt.to_string_short_freq entry.frequency_a
              ++ " >" ++ fmt.to_string_short_freq entry.frequency_b
              ++ " S:" ++ fmt.to_string_short_freq
                (entry_step_switch entry.step v.def_step)] }
        (by simp only [List.length_append, List.length_singleton]; omega) hpos hlo
      simp only [List.length_append, List.length_singleton] at h
      refine Nat.le_trans ?_ h
      split <;> omega

/-- One record that finds room, when none of the additions of its range loop
leaves the 64 bit range: the exact capped length. -/
theorem learn_entry_length (fmt : StringFormat) (entry : freqman_entry) (v : ScannerView)
    (hroom : v.frequency_list.length < MAX_DB_ENTRY) (hstep : 0 < v.def_step)
    (hmax : v.def_step ≤ MAX_STEP)
    (hlo : INT64_MIN ≤ entry.frequency_a) (hhi : entry.frequency_a ≤ INT64_MAX)
    (hend : entry.frequency_b + MAX_STEP ≤ INT64_MAX) :
    (learn_entry fmt entry v).frequency_list.length =
      min MAX_DB_ENTRY (v.frequency_list.length + uncapped_entry_count v.def_step entry) := by
  cases ht : entry.type with
  | SINGLE =>
    simp only [learn_entry, ht, uncapped_entry_count, List.length_append,
      List.length_singleton]
    omega
  | other =>
    simp only [learn_entry, ht, uncapped_entry_count]
    omega
  | RANGE =>
    have hpos := entry_step_switch_pos entry.step v.def_step hstep
    have hsw := entry_step_switch_le entry.step v.def_step hmax
    simp only [learn_entry, ht, uncapped_entry_count]
    rw [range_loop_result _ _ _
      (by simp only [List.length_append, List.length_singleton]; omega) hpos hlo ?_]
    · simp only [push_all, List.length_append, List.length_singleton, List.length_map,
        List.length_range]
      split <;> omega
    · simp only [List.length_append, List.length_singleton]
      by_cases hab : entry.frequency_a ≤ entry.frequency_b
      · rw [if_pos hab]
        have h1 := steps_le_end_add_step entry.frequency_a entry.frequency_b
          (entry_step_switch entry.step v.def_step)
          (min (MAX_DB_ENTRY - (v.frequency_list.length + 1))
            (((entry.frequency_b - entry.frequency_a) /
              (entry_step_switch entry.step v.def_step : Int)).toNat + 1))
          hpos hab (Nat.min_le_right _ _)
        have h2 : ((entry_step_switch entry.step v.def_step : Nat) : Int) ≤ (MAX_STEP : Int) := by
          exact_mod_cast hsw
        linarith
      · rw [if_neg hab]
        simp only [Nat.min_zero, Nat.cast_zero, zero_mul, add_zero]
        exact hhi

/-- With a full list the database loop breaks at once. -/
theorem learn_frequencies_full (fmt : StringFormat) (records : List freqman_entry)
    (v : ScannerView) (h : ¬ v.frequency_list.length < MAX_DB_ENTRY) :
    learn_frequencies fmt records v = v := by
  cases records with
  | nil => rfl
  | cons e rest => simp only [learn_frequencies, if_neg h]

/-- Running the database loop over `records ++ rest` is running it over
`records` and then over `rest`. -/
theorem learn_frequencies_append (fmt : StringFormat) (records rest : List freqman_entry) :
    ∀ v : ScannerView,
      learn_frequencies fmt (records ++ rest) v =
        learn_frequencies fmt rest (learn_frequencies fmt records v) := by
  induction records with
  | nil => intro v; rfl
  | cons e more ih =>
    intro v
    by_cases h : v.frequency_list.length < MAX_DB_ENTRY
    · simp only [List.cons_append, learn_frequencies, if_pos h]
      exact ih _
    · simp only [List.cons_append, learn_frequencies, if_neg h]
      exact (learn_frequencies_full fmt rest v h).symm

/-- The list after the database loop never holds more than `MAX_DB_ENTRY`
entries, with or without overflow of the additions. -/
theorem learn_frequencies_length_le (fmt : StringFormat) (records : List freqman_entry) :
    ∀ v : ScannerView, 0 < v.def_step → v.frequency_list.length ≤ MAX_DB_ENTRY →
      (learn_frequencies fmt records v).frequency_list.length ≤ MAX_DB_ENTRY := by
  induction records with
  | nil => intro v _ hroom; exact hroom
  | cons e rest ih =>
    intro v hstep hroom
    by_cases h : v.frequency_list.length < MAX_DB_ENTRY
    · obtain ⟨hd, hl, _⟩ := learn_entry_spec fmt e v h hstep
      simp only [learn_frequencies, if_pos h]
      exact ih _ (by rw [show_max_def_step, hd]; exact step_after_pos _ _ hstep)
        (by rw [show_max_frequency_list]; exact hl)
    · simp only [learn_frequencies, if_neg h]
      exact hroom

/-- The list after the database loop holds at least the uncapped count cut at
`MAX_DB_ENTRY`, with or without overflow, when the range starts are 64 bit
values. -/
theorem learn_frequencies_length_ge (fmt : StringFormat) (records : List freqman_entry) :
    ∀ v : ScannerView, 0 < v.def_step → v.frequency_list.length ≤ MAX_DB_ENTRY →
      (∀ entry ∈ records, INT64_MIN ≤ entry.frequency_a) →
      min MAX_DB_ENTRY (v.frequency_list.length + uncapped_count v.def_step records) ≤
        (learn_frequencies fmt records v).frequency_list.length := by
  induction records with
  | nil =>
    intro v _ hroom _
    simp only [learn_frequencies, uncapped_count]
    omega
  | cons e rest ih =>
    intro v hstep hroom hwf
    by_cases h : v.frequency_list.length < MAX_DB_ENTRY
    · obtain ⟨hd, hl, hg⟩ := learn_entry_spec fmt e v h hstep
      have hg := hg (hwf e (List.mem_cons_self e rest))
      simp only [learn_frequencies, if_pos h, uncapped_count]
      have hi := ih (show_max fmt (learn_entry fmt e v))
        (by rw [show_max_def_step, hd]; exact step_after_pos _ _ hstep)
        (by rw [show_max_frequency_list]; exact hl)
        (fun x hx => hwf x (List.mem_cons_of_mem e hx))
      rw [show_max_frequency_list, show_max_def_step, hd] at hi
      omega
    · simp only [learn_frequencies, if_neg h, uncapped_count]
      omega

/-- The length of the list after the database loop when no addition leaves
the 64 bit range: the uncapped count, cut at `MAX_DB_ENTRY`. -/
theorem learn_frequencies_length (fmt : StringFormat) (records : List freqman_entry) :
    ∀ v : ScannerView, 0 < v.def_step → v.def_step ≤ MAX_STEP →
      v.frequency_list.length ≤ MAX_DB_ENTRY →
      (∀ entry ∈ records, INT64_MIN ≤ entry.frequency_a ∧ entry.frequency_a ≤ INT64_MAX ∧
        entry.frequency_b + MAX_STEP ≤ INT64_MAX) →
      (learn_frequencies fmt records v).frequency_list.length =
        min MAX_DB_ENTRY (v.frequency_list.length + uncapped_count v.def_step records) := by
  induction records with
  | nil =>
    intro v _ _ hroom _
    simp only [learn_frequencies, uncapped_count]
    omega
  | cons e rest ih =>
    intro v hstep hmax hroom hwf
    by_cases h : v.frequency_list.length < MAX_DB_ENTRY
    · obtain ⟨hd, _, _⟩ := learn_entry_spec fmt e v h hstep
      obtain ⟨w1, w2, w3⟩ := hwf e (List.mem_cons_self e rest)
      have hl := learn_entry_length fmt e v h hstep hmax w1 w2 w3
      simp only [learn_frequencies, if_pos h, uncapped_count]
      rw [ih _ (by rw [show_max_def_step, hd]; exact step_after_pos _ _ hstep)
        (by rw [show_max_def_step, hd]; exact step_after_le _ _ hmax)
        (by rw [show_max_frequency_list, hl]; exact Nat.min_le_left _ _)
        (fun x hx => hwf x (List.mem_cons_of_mem e hx))]
      rw [show_max_frequency_list, show_max_def_step, hd, hl]
      omega
    · simp only [learn_frequencies, if_neg h, uncapped_count]
      omega

/-- When the records do not fit, the last `show_max` of the database loop saw
a full list. -/
theorem learn_frequencies_text_max (fmt : StringFormat) (records : List freqman_entry) :
    ∀ v : ScannerView, 0 < v.def_step → v.frequency_list.length < MAX_DB_ENTRY →
      (∀ entry ∈ records, INT64_MIN ≤ entry.frequency_a) →
      MAX_DB_ENTRY ≤ v.frequency_list.length + uncapped_count v.def_step records →
      (learn_frequencies fmt records v).text_max = db_max_text fmt := by
  induction records with
  | nil =>
    intro v _ hroom _ hcount
    simp only [uncapped_count] at hcount
    omega
  | cons e rest ih =>
    intro v hstep hroom hwf hcount
    obtain ⟨hd, hl, hg⟩ := learn_entry_spec fmt e v hroom hstep
    have hg := hg (hwf e (List.mem_cons_self e rest))
    simp only [learn_frequencies, if_pos hroom]
    simp only [uncapped_count] at hcount
    by_cases hfull : (learn_entry fmt e v).frequency_list.length < MAX_DB_ENTRY
    · apply ih
      · rw [show_max_def_step, hd]; exact step_after_pos _ _ hstep
      · rw [show_max_frequency_list]; exact hfull
      · exact fun x hx => hwf x (List.mem_cons_of_mem e hx)
      · rw [show_max_frequency_list, show_max_def_step, hd]
        omega
    · rw [learn_frequencies_full _ _ _ (by rw [show_max_frequency_list]; exact hfull)]
      have heq : (learn_entry fmt e v).frequency_list.length = MAX_DB_ENTRY := by
        omega
      simp only [show_max, heq, if_true, db_max_text]

theorem construct_frequency_list (fmt : StringFormat) (stored_freq : Int)
    (records : List freqman_entry) :
    (ScannerView.construct fmt stored_freq (some records)).frequency_list =
      (learn_frequencies fmt records (ScannerView.preconfigured stored_freq)).frequency_list := by
  simp only [ScannerView.construct, start_scan_thread]
  split <;> rfl

theorem construct_text_max (fmt : StringFormat) (stored_freq : Int)
    (records : List freqman_entry) :
    (ScannerView.construct fmt stored_freq (some records)).text_max =
      (learn_frequencies fmt records (ScannerView.preconfigured stored_freq)).text_max := by
  simp only [ScannerView.construct, start_scan_thread]
  split <;> rfl

/-- C8. The frequency list built by the constructor never holds more than
`MAX_DB_ENTRY = 500` entries, for every database and also when there is none.
Write `n` for the number of frequencies the records expand to without the cap.
For records whose range starts are 64 bit values the list holds at least
`min 500 n` entries; so if `n > 500` it holds exactly 500 entries and
`text_max` shows the "(DB MAX!)" text of `show_max`. When in addition no
range end is within the largest step of `INT64_MAX`, so that no addition
overflows, the list holds exactly `min 500 n` entries. Once the list built
from `records` holds 500 entries, any further records `rest` leave the
constructed view as it is: they are discarded. -/
theorem database_capacity_cap (fmt : StringFormat) (stored_freq : Int)
    (records : List freqman_entry) :
    (∀ database : Option (List freqman_entry),
      (ScannerView.construct fmt stored_freq database).frequency_list.length ≤ MAX_DB_ENTRY) ∧
    ((∀ entry ∈ records, INT64_MIN ≤ entry.frequency_a) →
      min MAX_DB_ENTRY (uncapped_count (mod_step modulation_type.AM) records) ≤
        (ScannerView.construct fmt stored_freq (some records)).frequency_list.length) ∧
    ((∀ entry ∈ records, INT64_MIN ≤ entry.frequency_a) →
      MAX_DB_ENTRY < uncapped_count (mod_step modulation_type.AM) records →
      (ScannerView.construct fmt stored_freq (some records)).frequency_list.length =
        MAX_DB_ENTRY ∧
      (ScannerView.construct fmt stored_freq (some records)).text_max =
        "/ " ++ fmt.to_string_dec_uint MAX_DB_ENTRY ++ " (DB MAX!)") ∧
    ((∀ entry ∈ records, INT64_MIN ≤ entry.frequency_a ∧ entry.frequency_a ≤ INT64_MAX ∧
        entry.frequency_b + MAX_STEP ≤ INT64_MAX) →
      (ScannerView.construct fmt stored_freq (some records)).frequency_list.length =
        min MAX_DB_ENTRY (uncapped_count (mod_step modulation_type.AM) records)) ∧
    (∀ rest : List freqman_entry,
      (ScannerView.construct fmt stored_freq (some records)).frequency_list.length =
        MAX_DB_ENTRY →
      ScannerView.construct fmt stored_freq (some (records ++ rest)) =
        ScannerView.construct fmt stored_freq (some records)) := by
  have hstep : 0 < (ScannerView.preconfigured stored_freq).def_step :=
    show 0 < mod_step modulation_type.AM by decide
  have hmax : (ScannerView.preconfigured stored_freq).def_step ≤ MAX_STEP :=
    show mod_step modulation_type.AM ≤ MAX_STEP by decide
  have hroom : (ScannerView.preconfigured stored_freq).frequency_list.length < MAX_DB_ENTRY :=
    show ([] : List Int).length < MAX_DB_ENTRY by decide
  have hd : (ScannerView.preconfigured stored_freq).def_step = mod_step modulation_type.AM :=
    rfl
  have h0 : (ScannerView.preconfigured stored_freq).frequency_list.length = 0 := rfl
  have hle : ∀ rs : List freqman_entry,
      (ScannerView.construct fmt stored_freq (some rs)).frequency_list.length ≤
        MAX_DB_ENTRY := by
    intro rs
    rw [construct_frequency_list]
    exact learn_frequencies_length_le fmt rs _ hstep hroom.le
  have hge : (∀ entry ∈ records, INT64_MIN ≤ entry.frequency_a) →
      min MAX_DB_ENTRY (uncapped_count (mod_step modulation_type.AM) records) ≤
        (ScannerView.construct fmt stored_freq (some records)).frequency_list.length := by
    intro hwf
    have h := learn_frequencies_length_ge fmt records
      (ScannerView.preconfigured stored_freq) hstep hroom.le hwf
    rw [h0, hd, Nat.zero_add] at h
    rw [construct_frequency_list]
    exact h
  refine ⟨?_, hge, ?_, ?_, ?_⟩
  · intro database
    cases database with
    | none => exact show ([] : List Int).length ≤ MAX_DB_ENTRY by decide
    | some rs => exact hle rs
  · intro hwf hbig
    refine ⟨by have := hge hwf; have := hle records; omega, ?_⟩
    rw [construct_text_max]
    exact learn_frequencies_text_max fmt records (ScannerView.preconfigured stored_freq)
      hstep hroom hwf (by rw [hd, h0]; omega)
  · intro hwf
    have h := learn_frequencies_length fmt records
      (ScannerView.preconfigured stored_freq) hstep hmax hroom.le hwf
    rw [h0, hd, Nat.zero_add] at h
    rw [construct_frequency_list]
    exact h
  · intro rest hfull
    rw [construct_frequency_list] at hfull
    simp only [ScannerView.construct]
    rw [learn_frequencies_append,
      learn_frequencies_full fmt rest _ (by rw [hfull]; exact Nat.lt_irrefl _)]

/-- C8, witness: one range record from 100 MHz to 200 MHz at 100 kHz steps
would expand to 1002 frequencies; the list holds 500 and `text_max` shows the
"(DB MAX!)" text. -/
theorem database_capacity_cap_witness :
    MAX_DB_ENTRY < uncapped_count (mod_step modulation_type.AM) wide_range_database ∧
    (ScannerView.construct decimal_format 98000000
        (some wide_range_database)).frequency_list.length = MAX_DB_ENTRY ∧
    (ScannerView.construct decimal_format 98000000 (some wide_range_database)).text_max =
      "/ " ++ decimal_format.to_string_dec_uint MAX_DB_ENTRY ++ " (DB MAX!)" :=
  ⟨by decide,
    (database_capacity_cap decimal_format 98000000 wide_range_database).2.2.1
      (by decide) (by decide)⟩

/-! ## The scan task -/

/-- A pass with scanning enabled and no lock hold, from a cursor inside the
list, retunes to the next index, wrapping to `0` after the last one. -/
theorem run_tick_advance (l : List Int) (idx : Nat) (hidx : idx < l.length)
    (hlen : l.length < UINT32) :
    run_tick l true 0 idx = retune_pass l ((idx + 1) % l.length) := by
  have h1 : (idx + 1) % UINT32 = idx + 1 := Nat.mod_eq_of_lt (by omega)
  have h2 : (if idx + 1 ≥ l.length then 0 else idx + 1) = (idx + 1) % l.length := by
    by_cases h : idx + 1 ≥ l.length
    · have : idx + 1 = l.length := by omega
      rw [if_pos h, this, Nat.mod_self]
    · rw [if_neg h, Nat.mod_eq_of_lt (by omega)]
  simp only [run_tick, if_true, h1, h2, retune_pass]

/-- The first pass, from the initial cursor `frequency_list_.size()`, retunes
to index `0`. -/
theorem run_tick_first (l : List Int) (hne : l ≠ []) (hlen : l.length < UINT32) :
    run_tick l true 0 (l.length % UINT32) = retune_pass l 0 := by
  have hpos : 0 < l.length := List.length_pos.mpr hne
  have h0 : l.length % UINT32 = l.length := Nat.mod_eq_of_lt hlen
  have h2 : (if (l.length + 1) % UINT32 ≥ l.length then 0 else (l.length + 1) % UINT32) = 0 := by
    by_cases h : l.length + 1 < UINT32
    · rw [Nat.mod_eq_of_lt h, if_pos (by omega)]
    · have : l.length + 1 = UINT32 := by omega
      rw [this, Nat.mod_self, if_neg (by omega)]
  simp only [run_tick, if_true, h0, h2, retune_pass]

/-- Passes with scanning enabled and no lock hold, from a cursor inside the
list: pass `j` (counted from `0`) retunes to index `(idx + 1 + j) mod n`. -/
theorem run_loop_scanning (l : List Int) (hlen : l.length < UINT32) (N : Nat) :
    ∀ idx : Nat, idx < l.length →
      run_loop l (List.replicate N (true, 0)) idx =
        (List.range N).map (fun j => retune_pass l ((idx + 1 + j) % l.length)) := by
  induction N with
  | zero => intro idx _; rfl
  | succ N ih =>
    intro idx hidx
    have hpos : 0 < l.length := by omega
    rw [List.replicate_succ, run_loop, run_tick_advance l idx hidx hlen,
      List.range_succ_eq_map, List.map_cons, List.map_map]
    simp only [retune_pass, Nat.add_zero, List.cons.injEq, true_and]
    rw [ih _ (Nat.mod_lt _ hpos)]
    apply List.map_congr_left
    intro j _
    simp only [retune_pass, Function.comp, Nat.succ_eq_add_one]
    have : ((idx + 1) % l.length + 1 + j) % l.length = (idx + 1 + (j + 1)) % l.length := by
      rw [Nat.add_assoc ((idx + 1) % l.length), Nat.mod_add_mod]
      congr 1
      omega
    rw [this]

/-- The whole run with scanning enabled and no lock hold: pass `j` (counted
from `0`) retunes to index `j mod n`. -/
theorem run_scanning (l : List Int) (hne : l ≠ []) (hlen : l.length < UINT32) (N : Nat) :
    run l (List.replicate N (true, 0)) =
      (List.range N).map (fun j => retune_pass l (j % l.length)) := by
  have hpos : 0 < l.length := List.length_pos.mpr hne
  have hn : l.length ≠ 0 := by omega
  cases N with
  | zero => simp [run, run_loop]
  | succ N =>
    rw [run, if_pos hn, List.replicate_succ, run_loop, run_tick_first l hne hlen,
      List.range_succ_eq_map, List.map_cons, List.map_map]
    simp only [Nat.zero_mod, List.cons.injEq, true_and]
    have h0 : (retune_pass l 0).1 = 0 := rfl
    rw [h0, run_loop_scanning l hlen N 0 hpos]
    apply List.map_congr_left
    intro j _
    simp only [Function.comp, Nat.succ_eq_add_one]
    congr 2
    omega

/-- C9. For a non-empty frequency list of length `n` (a length that fits
`uint32_t`), with scanning enabled and `freq_lock = 0` in every pass, the
`k`-th pass of `ScannerThread::run` (`k ≥ 1`) leaves the cursor at
`(k - 1) mod n`, retunes to the frequency stored at that index and notifies
that index; and the cursors of the passes `m * n + 1, ..., m * n + n` are
`0, 1, ..., n - 1` in this order, for every `m`. -/
theorem cyclic_coverage (l : List Int) (hne : l ≠ []) (hlen : l.length < UINT32) :
    (∀ N k : Nat, 1 ≤ k → k ≤ N →
      (run l (List.replicate N (true, 0)))[k - 1]? =
        some ((k - 1) % l.length,
          [ThreadCall.set_tuning_frequency (l.getD ((k - 1) % l.length) 0),
           ThreadCall.send_message ((k - 1) % l.length), ThreadCall.sleep_ms 50]) ∧
      l[(k - 1) % l.length]? = some (l.getD ((k - 1) % l.length) 0)) ∧
    (∀ m : Nat,
      ((run l (List.replicate ((m + 1) * l.length) (true, 0))).drop (m * l.length)).map Prod.fst
        = List.range l.length) := by
  have hpos : 0 < l.length := List.length_pos.mpr hne
  refine ⟨?_, ?_⟩
  · intro N k hk1 hkN
    have hk : k - 1 < N := by omega
    refine ⟨?_, ?_⟩
    · rw [run_scanning l hne hlen N, List.getElem?_map, List.getElem?_range hk]
      rfl
    · have hlt : (k - 1) % l.length < l.length := Nat.mod_lt _ hpos
      rw [List.getD_eq_getElem l 0 hlt, List.getElem?_eq_getElem hlt]
  · intro m
    rw [run_scanning l hne hlen]
    apply List.ext_getElem?
    intro i
    simp only [List.getElem?_map, List.getElem?_drop]
    by_cases hi : i < l.length
    · have h1 : m * l.length + i < (m + 1) * l.length := by
        rw [Nat.add_mul, Nat.one_mul]; omega
      rw [List.getElem?_range h1, List.getElem?_range hi]
      simp only [Option.map_some', retune_pass, Option.some.injEq]
      rw [Nat.mul_comm, Nat.mul_add_mod, Nat.mod_eq_of_lt hi]
    · have h1 : ¬ (m * l.length + i < (m + 1) * l.length) := by
        rw [Nat.add_mul, Nat.one_mul]; omega
      rw [List.getElem?_eq_none (by simpa using Nat.le_of_not_lt h1),
        List.getElem?_eq_none (by simpa using Nat.le_of_not_lt hi)]
      rfl

/-- C9, witness: a list of three frequencies. -/
theorem cyclic_coverage_witness :
    (∀ N k : Nat, 1 ≤ k → k ≤ N →
      (run three_frequencies (List.replicate N (true, 0)))[k - 1]? =
        some ((k - 1) % three_frequencies.length,
          [ThreadCall.set_tuning_frequency
            (three_frequencies.getD ((k - 1) % three_frequencies.length) 0),
           ThreadCall.send_message ((k - 1) % three_frequencies.length),
           ThreadCall.sleep_ms 50]) ∧
      three_frequencies[(k - 1) % three_frequencies.length]? =
        some (three_frequencies.getD ((k - 1) % three_frequencies.length) 0)) ∧
    (∀ m : Nat,
      ((run three_frequencies
          (List.replicate ((m + 1) * three_frequencies.length)
            (true, 0))).drop (m * three_frequencies.length)).map Prod.fst
        = List.range three_frequencies.length) :=
  cyclic_coverage three_frequencies (by decide) (by decide)

/-- C10. In a pass of `ScannerThread::run` with scanning enabled and a lock
hold active (`freq_lock ≠ 0`) the cursor is unchanged and the calls are a
25 ms sleep, the retune message carrying the unchanged cursor and the 50 ms
sleep; no call of `set_tuning_frequency` is made. -/
theorem lock_hold_tick (l : List Int) (freq_lock frequency_index : Nat)
    (h : freq_lock ≠ 0) :
    (run_tick l true freq_lock frequency_index).1 = frequency_index ∧
    (run_tick l true freq_lock frequency_index).2 =
      [ThreadCall.sleep_ms 25, ThreadCall.send_message frequency_index,
       ThreadCall.sleep_ms 50] ∧
    (∀ f : Int,
      ThreadCall.set_tuning_frequency f ∉ (run_tick l true freq_lock frequency_index).2) := by
  have hr : run_tick l true freq_lock frequency_index =
      (frequency_index,
        [ThreadCall.sleep_ms 25, ThreadCall.send_message frequency_index,
         ThreadCall.sleep_ms 50]) := by
    simp only [run_tick, if_true, if_neg h]
  rw [hr]
  refine ⟨rfl, rfl, ?_⟩
  intro f hf
  simp at hf

/-- C10, witness: a pass at cursor `1` of a three entry list with the probe
counter at `3`. -/
theorem lock_hold_tick_witness :
    (run_tick three_frequencies true 3 1).1 = 1 ∧
    (run_tick three_frequencies true 3 1).2 =
      [ThreadCall.sleep_ms 25, ThreadCall.send_message 1, ThreadCall.sleep_ms 50] ∧
    (∀ f : Int,
      ThreadCall.set_tuning_frequency f ∉ (run_tick three_frequencies true 3 1).2) :=
  lock_hold_tick three_frequencies 3 1 (by decide)

/-! ## The lock machine: zero squelch -/

/-- A sample that is not above squelch never pauses a scanning view: the
scanning flag stays set, no call is made and the squelch is unchanged. -/
theorem on_statistics_update_quiet (x : Int) (v : ScannerView)
    (hs : v.scan_thread._scanning = true) (hx : ¬ (x > - v.squelch)) :
    (on_statistics_update x v).scan_thread._scanning = true ∧
    (on_statistics_update x v).calls = v.calls ∧
    (on_statistics_update x v).squelch = v.squelch := by
  unfold on_statistics_update
  simp only [if_neg hx]
  split
  · split
    · simp only [scan_resume, hs, Bool.not_true, Bool.false_eq_true, if_false]
      exact ⟨trivial, trivial, trivial⟩
    · split
      · split
        · exact ⟨hs, rfl, rfl⟩
        · exact ⟨hs, rfl, rfl⟩
      · exact ⟨hs, rfl, rfl⟩
  · exact ⟨hs, rfl, rfl⟩

/-- C11, counterexample. With `squelch = 0` the idle view (`wait = 5`) is
locked by eleven samples of level `1`: the scanning flag is cleared and the
audio output is started. -/
theorem zero_squelch_locks_on_positive_levels :
    (idle_view 5 0).squelch = 0 ∧
    (idle_view 5 0).scan_thread._scanning = true ∧
    (idle_view 5 0).scan_thread._userpause = false ∧
    (feed (List.replicate 11 1) (idle_view 5 0)).scan_thread._scanning = false ∧
    (feed (List.replicate 11 1) (idle_view 5 0)).calls = [Call.audio_output_start] := by
  decide

/-- C11, amended. With `squelch = 0` and the scanning flag set, every sequence
of samples whose levels are all `≤ 0` leaves the scanning flag set and the
call log unchanged (no audio start, so `scan_pause` never took effect),
whatever the timer, the probe counter, `wait` and the user pause flag are;
the handler is a total function, so no error is raised. -/
theorem zero_squelch_never_locks (v : ScannerView) (samples : List Int)
    (hq : v.squelch = 0) (hs : v.scan_thread._scanning = true)
    (hx : ∀ x ∈ samples, x ≤ 0) :
    (feed samples v).scan_thread._scanning = true ∧
    (feed samples v).calls = v.calls ∧
    (feed samples v).squelch = 0 := by
  induction samples generalizing v with
  | nil => exact ⟨hs, rfl, hq⟩
  | cons x xs ih =>
    have hx0 : ¬ (x > - v.squelch) := by
      have := hx x (List.mem_cons_self x xs)
      rw [hq]; omega
    obtain ⟨h1, h2, h3⟩ := on_statistics_update_quiet x v hs hx0
    rw [feed_cons]
    obtain ⟨g1, g2, g3⟩ := ih (on_statistics_update x v) (by rw [h3, hq]) h1
      (fun y hy => hx y (List.mem_cons_of_mem x hy))
    exact ⟨g1, by rw [g2, h2], g3⟩

/-- C11, witness: the idle view with `squelch = 0` and twenty samples of level
`0`. -/
theorem zero_squelch_never_locks_witness :
    (feed (List.replicate 20 0) (idle_view 5 0)).scan_thread._scanning = true ∧
    (feed (List.replicate 20 0) (idle_view 5 0)).calls = (idle_view 5 0).calls ∧
    (feed (List.replicate 20 0) (idle_view 5 0)).squelch = 0 :=
  zero_squelch_never_locks (idle_view 5 0) (List.replicate 20 0)
    (by decide) (by decide) (by decide)

/-! ## The frequency list builders: range records of the database -/

/-- What the constructor appends for a range record with
`frequency_a ≤ frequency_b` when the list has room for all of it and no
addition leaves the 64 bit range: the terms
`frequency_a + i * step` for `i ≤ (frequency_b - frequency_a) / step + 1`.
The last of them, pushed after the last successful test
`frequency_a <= frequency_b`, is above `frequency_b`. -/
theorem learn_entry_range_frequencies (fmt : StringFormat) (entry : freqman_entry)
    (v : ScannerView) (ht : entry.type = freqman_entry_type.RANGE)
    (hab : entry.frequency_a ≤ entry.frequency_b)
    (hstep : 0 < entry_step_switch entry.step v.def_step)
    (hlo : INT64_MIN ≤ entry.frequency_a)
    (hhi : entry.frequency_b + entry_step_switch entry.step v.def_step ≤ INT64_MAX)
    (hroom : v.frequency_list.length +
      (((entry.frequency_b - entry.frequency_a) /
        (entry_step_switch entry.step v.def_step : Int)).toNat + 2) ≤ MAX_DB_ENTRY) :
    (learn_entry fmt entry v).frequency_list =
      v.frequency_list ++
        (List.range (((entry.frequency_b - entry.frequency_a) /
            (entry_step_switch entry.step v.def_step : Int)).toNat + 2)).map
          (fun i : Nat =>
            entry.frequency_a + (i : Int) * entry_step_switch entry.step v.def_step) ∧
    entry.frequency_b <
      entry.frequency_a +
        ((((entry.frequency_b - entry.frequency_a) /
          (entry_step_switch entry.step v.def_step : Int)).toNat + 1 : Nat) : Int) *
          entry_step_switch entry.step v.def_step := by
  have hbound := steps_le_end_add_step entry.frequency_a entry.frequency_b
    (entry_step_switch entry.step v.def_step)
    (min (MAX_DB_ENTRY - (v.frequency_list.length + 1))
      (((entry.frequency_b - entry.frequency_a) /
        (entry_step_switch entry.step v.def_step : Int)).toNat + 1))
    hstep hab (Nat.min_le_right _ _)
  generalize hK : ((entry.frequency_b - entry.frequency_a) /
    (entry_step_switch entry.step v.def_step : Int)).toNat = K at hroom hbound ⊢
  refine ⟨?_, ?_⟩
  · simp only [learn_entry, ht]
    rw [range_loop_result _ _ _
      (by simp only [List.length_append, List.length_singleton]; omega) hstep hlo
      (by
        simp only [List.length_append, List.length_singleton, if_pos hab, hK]
        linarith)]
    simp only [push_all, if_pos hab, hK, List.length_append, List.length_singleton]
    have hmin : min (MAX_DB_ENTRY - (v.frequency_list.length + 1)) (K + 1) = K + 1 := by
      omega
    rw [hmin, progression_succ entry.frequency_a _ (K + 1), List.append_assoc]
    rfl
  · have h := lt_succ_div_mul (entry.frequency_b - entry.frequency_a)
      (entry_step_switch entry.step v.def_step) hstep (by omega)
    rw [hK] at h
    linarith

/-- C12, the code at the failing input (far from any 64 bit overflow). A database of one range record with
`frequency_a = 100000000`, `frequency_b = 100020000` and the step code
`AM_US` (10000 Hz) meets the premises of the claim, and the constructor builds
the list `100000000, 100010000, 100020000, 100030000`: the last appended
frequency is above `frequency_b`. -/
theorem range_record_pushes_beyond_frequency_b :
    (∀ entry ∈ narrow_range_database,
      entry.type = freqman_entry_type.RANGE ∧
      entry.frequency_a = 100000000 ∧ entry.frequency_b = 100020000 ∧
      entry.frequency_a ≤ entry.frequency_b ∧
      entry_step_switch entry.step (mod_step modulation_type.AM) = 10000) ∧
    (ScannerView.construct decimal_format 98000000
        (some narrow_range_database)).frequency_list =
      [100000000, 100010000, 100020000, 100030000] ∧
    ¬ (∀ f ∈ (ScannerView.construct decimal_format 98000000
          (some narrow_range_database)).frequency_list, f ≤ 100020000) := by
  decide

/-! ## The scan task: notified indices -/

/-- A pass with scanning enabled and no lock hold ends with the cursor inside
a non-empty list, whatever the cursor was, and notifies that cursor. -/
theorem run_tick_retune_in_bounds (l : List Int) (idx : Nat) (hpos : 0 < l.length) :
    (run_tick l true 0 idx).1 < l.length ∧
    ∀ r ∈ message_ranges (run_tick l true 0 idx).2, r < l.length := by
  have hj : (if (idx + 1) % UINT32 ≥ l.length then 0 else (idx + 1) % UINT32) < l.length := by
    split
    · exact hpos
    · omega
  simp only [run_tick, if_true, message_ranges, List.mem_singleton]
  refine ⟨hj, ?_⟩
  intro r hr
  rw [hr]
  exact hj

/-- A pass from a cursor inside the list keeps the cursor inside the list and
notifies only indices inside the list, whatever the flags are. -/
theorem run_tick_in_bounds (l : List Int) (scanning : Bool) (freq_lock idx : Nat)
    (hidx : idx < l.length) :
    (run_tick l scanning freq_lock idx).1 < l.length ∧
    ∀ r ∈ message_ranges (run_tick l scanning freq_lock idx).2, r < l.length := by
  cases scanning with
  | false =>
    simp only [run_tick, Bool.false_eq_true, if_false, message_ranges]
    exact ⟨hidx, fun r hr => absurd hr (List.not_mem_nil r)⟩
  | true =>
    by_cases h : freq_lock = 0
    · rw [h]
      exact run_tick_retune_in_bounds l idx (by omega)
    · simp only [run_tick, if_true, if_neg h, message_ranges, List.mem_singleton]
      refine ⟨hidx, ?_⟩
      intro r hr
      rw [hr]
      exact hidx

/-- Once the cursor is inside the list every later notification is. -/
theorem run_loop_in_bounds (l : List Int) (flags : List (Bool × Nat)) :
    ∀ idx : Nat, idx < l.length →
      ∀ r ∈ notifications (run_loop l flags idx), r < l.length := by
  induction flags with
  | nil =>
    intro idx _ r hr
    exact absurd hr (List.not_mem_nil r)
  | cons p rest ih =>
    intro idx hidx r hr
    obtain ⟨scanning, freq_lock⟩ := p
    obtain ⟨h1, h2⟩ := run_tick_in_bounds l scanning freq_lock idx hidx
    simp only [run_loop, notifications, List.mem_append] at hr
    rcases hr with hr | hr
    · exact h2 r hr
    · exact ih _ h1 r hr

/-- Passes without scanning send nothing; after them a pass that retunes
brings the cursor inside the list, from any cursor. -/
theorem run_loop_in_bounds_after_retune (l : List Int) (hpos : 0 < l.length)
    (post : List (Bool × Nat)) (pre : List (Bool × Nat)) :
    ∀ idx : Nat, (∀ p ∈ pre, p.1 = false) →
      ∀ r ∈ notifications (run_loop l (pre ++ (true, 0) :: post) idx), r < l.length := by
  induction pre with
  | nil =>
    intro idx _ r hr
    obtain ⟨h1, h2⟩ := run_tick_retune_in_bounds l idx hpos
    simp only [List.nil_append, run_loop, notifications, List.mem_append] at hr
    rcases hr with hr | hr
    · exact h2 r hr
    · exact run_loop_in_bounds l post _ h1 r hr
  | cons p rest ih =>
    intro idx hpre r hr
    obtain ⟨scanning, freq_lock⟩ := p
    have hs : scanning = false := hpre (scanning, freq_lock) (List.mem_cons_self _ _)
    subst hs
    have ht : run_tick l false freq_lock idx = (idx, [ThreadCall.sleep_ms 50]) := by
      simp only [run_tick, Bool.false_eq_true, if_false]
    simp only [List.cons_append, run_loop, notifications, ht, message_ranges,
      List.nil_append] at hr
    exact ih idx (fun q hq => hpre q (List.mem_cons_of_mem _ hq)) r hr

/-- The notified indices are inside a non-empty list for every schedule whose
first pass with scanning enabled has no lock hold. -/
theorem run_notifications_in_bounds (l : List Int) (hne : l ≠ [])
    (pre post : List (Bool × Nat)) (hpre : ∀ p ∈ pre, p.1 = false) :
    ∀ r ∈ notifications (run l (pre ++ (true, 0) :: post)), r < l.length := by
  have hpos : 0 < l.length := List.length_pos.mpr hne
  have hn : l.length ≠ 0 := by omega
  intro r hr
  rw [run, if_pos hn] at hr
  exact run_loop_in_bounds_after_retune l hpos post pre _ hpre r hr

/-- The manual loop pushes one description per frequency. -/
theorem manual_range_loop_lists (fuel : Nat) :
    ∀ (f : Int) (v : ScannerView) (c : Nat),
      v.description_list.length = v.frequency_list.length + c →
      (manual_range_loop fuel f v).2.description_list.length =
        (manual_range_loop fuel f v).2.frequency_list.length + c := by
  induction fuel with
  | zero => intro f v c h; exact h
  | succ n ih =>
    intro f v c h
    by_cases hc : v.frequency_list.length < MAX_DB_ENTRY ∧ f ≤ v.frequency_range_max
    · rw [manual_range_loop, if_pos hc]
      apply ih
      simp only [List.length_append, List.length_singleton]
      omega
    · rw [manual_range_loop, if_neg hc]
      exact h

/-- After a manual scan of a valid range the description list holds one entry
more than the frequency list (the label pushed first), with or without
overflow. -/
theorem manual_scan_description_list (fmt : StringFormat) (v : ScannerView)
    (hmin : v.frequency_range_min ≠ 0) (hmax : v.frequency_range_max ≠ 0)
    (hle : v.frequency_range_min ≤ v.frequency_range_max) :
    (button_manual_scan_on_select fmt v).description_list.length =
      (button_manual_scan_on_select fmt v).frequency_list.length + 1 := by
  have h1 : ¬ (v.frequency_range_min = 0 ∨ v.frequency_range_max = 0) := by
    rintro (h | h)
    · exact hmin h
    · exact hmax h
  have h2 : ¬ (v.frequency_range_min > v.frequency_range_max) := by omega
  simp only [button_manual_scan_on_select, if_neg h1, if_neg h2, start_scan_thread,
    show_max_frequency_list, show_max_description_list]
  apply manual_range_loop_lists
  rfl

/-- The range loop pushes one description per frequency. -/
theorem range_loop_lists (fuel : Nat) :
    ∀ (a b : Int) (v : ScannerView),
      v.description_list.length = v.frequency_list.length →
      (range_loop fuel a b v).2.description_list.length =
        (range_loop fuel a b v).2.frequency_list.length := by
  induction fuel with
  | zero => intro a b v h; exact h
  | succ n ih =>
    intro a b v h
    by_cases hc : v.frequency_list.length < MAX_DB_ENTRY ∧ a ≤ b
    · rw [range_loop, if_pos hc]
      apply ih
      simp only [List.length_append, List.length_singleton]
      omega
    · rw [range_loop, if_neg hc]
      exact h

/-- The database loop keeps the two lists equally long. -/
theorem learn_frequencies_lists (fmt : StringFormat) (records : List freqman_entry) :
    ∀ v : ScannerView, v.description_list.length = v.frequency_list.length →
      (learn_frequencies fmt records v).description_list.length =
        (learn_frequencies fmt records v).frequency_list.length := by
  induction records with
  | nil => intro v h; exact h
  | cons e rest ih =>
    intro v h
    by_cases hroom : v.frequency_list.length < MAX_DB_ENTRY
    · simp only [learn_frequencies, if_pos hroom]
      apply ih
      rw [show_max_description_list, show_max_frequency_list]
      cases ht : e.type with
      | SINGLE =>
        simp only [learn_entry, ht, List.length_append, List.length_singleton]
        omega
      | other =>
        simp only [learn_entry, ht]
        exact h
      | RANGE =>
        simp only [learn_entry, ht]
        apply range_loop_lists
        simp only [List.length_append, List.length_singleton]
        omega
    · simp only [learn_frequencies, if_neg hroom]
      exact h

/-- After the constructor the two lists are equally long and the scan thread
holds the frequency list. -/
theorem construct_lists (fmt : StringFormat) (stored_freq : Int)
    (database : Option (List freqman_entry)) :
    (ScannerView.construct fmt stored_freq database).description_list.length =
      (ScannerView.construct fmt stored_freq database).frequency_list.length ∧
    (ScannerView.construct fmt stored_freq database).scan_thread.frequency_list_ =
      (ScannerView.construct fmt stored_freq database).frequency_list := by
  refine ⟨?_, rfl⟩
  cases database with
  | none => rfl
  | some records =>
    have h := learn_frequencies_lists fmt records (ScannerView.preconfigured stored_freq) rfl
    simp only [ScannerView.construct, start_scan_thread]
    split <;> exact h

end Scanner
